import Mathlib

/-!
  # Merkle Mountain Range accumulator: embedding and verification

  Shallow embedding of the `MerkleMountainRange` structure of `src/lib.rs`.

  Modelling conventions:
  * `Digest` values live in an arbitrary type `D`; the pluggable hash engine
    (`hash_node_pair`, Keccak-256 or Blake3) is an abstract binary function
    `c : D → D → D`, passed explicitly where the Rust methods read
    `self.hash_type`.
  * Rust `Vec` indexing (`self.layers[level]`, `peaks[0]`, `.unwrap()`) panics
    when out of bounds.  Every operation that can panic is embedded with an
    `Option` wrapper: `none` is a panic, `some r` is a normal return carrying
    the Rust result `r` (itself an `Option` when the Rust function returns
    `Option<_>`).
  * `usize` values are `Nat` (no arithmetic here can overflow a 64-bit
    machine word before a `Vec` allocation would fail); the `i32` parameter
    `leaf_index` of `verify_proof` is `Int`, with Rust's truncated `%` and `/`
    embedded as `Int.tmod` and `Int.tdiv`.
  * Loops (`for level in 0..self.max_height`) become fuel recursion where the
    fuel is the number of remaining iterations, so the fuel-0 case is the
    normal loop exit.
-/

/-- The accumulator state: `layers` is the `Vec<Vec<Hash>>` of levels and
`max_height` the construction-time capacity bound. The `hash_type` field is
replaced by the explicit `c` parameter of each operation. -/
structure MerkleMountainRange (D : Type) where
  layers : List (List D)
  max_height : Nat
deriving DecidableEq

/-- Rust `MerkleMountainRange::new`: `max_height` empty levels. -/
def new (D : Type) (max_height : Nat) : MerkleMountainRange D :=
  ⟨List.replicate max_height [], max_height⟩

/-- Replace level `i` (used to embed `self.layers[i].push(x)` after the
corresponding read succeeded). -/
def setLayer {D : Type} (m : MerkleMountainRange D) (i : Nat) (l : List D) :
    MerkleMountainRange D :=
  ⟨m.layers.set i l, m.max_height⟩

/-- Rust `top_level`: reads `self.layers[0].len()` (panic when there is no
level 0), then `usize::BITS - n.leading_zeros() - 1`, which is `Nat.log2 n`
for `n ≥ 1`. -/
def top_level {D : Type} (m : MerkleMountainRange D) : Option (Option Nat) :=
  match m.layers[0]? with
  | none => none
  | some l0 => if l0.length = 0 then some none else some (some (Nat.log2 l0.length))

/-- The `for level in 0..max_height` loop body of Rust `build_peaks`: at each
level with an even length of at least 2, hash the last two entries and push
the parent onto the next level (`self.layers[level + 1]`, a panic when that
level does not exist); stop at the first level that is odd or short. -/
def buildPeaksAux {D : Type} (c : D → D → D) :
    Nat → Nat → MerkleMountainRange D → Option (MerkleMountainRange D)
  | 0, _, m => some m
  | fuel + 1, level, m =>
    match m.layers[level]? with
    | none => none
    | some cur =>
      if cur.length ≥ 2 ∧ cur.length % 2 = 0 then
        match cur[cur.length - 2]?, cur[cur.length - 1]?,
              m.layers[level + 1]? with
        | some left_child, some right_child, some nxt =>
          buildPeaksAux c fuel (level + 1)
            (setLayer m (level + 1) (nxt ++ [c left_child right_child]))
        | _, _, _ => none
      else
        some m

/-- Rust `build_peaks`. -/
def build_peaks {D : Type} (c : D → D → D) (m : MerkleMountainRange D) :
    Option (MerkleMountainRange D) :=
  buildPeaksAux c m.max_height 0 m

/-- Rust `append_leaf`: push onto level 0 (panic when absent), then
`build_peaks`. -/
def append_leaf {D : Type} (c : D → D → D) (m : MerkleMountainRange D) (h : D) :
    Option (MerkleMountainRange D) :=
  match m.layers[0]? with
  | none => none
  | some l0 => build_peaks c (setLayer m 0 (l0 ++ [h]))

/-- Rust `append_data`: `compute_hash` is the abstract byte-level hash
`hashFn` (Keccak-256 / Blake3 are out of scope per the spec), bytes are a
`List Nat`. -/
def append_data {D : Type} (c : D → D → D) (hashFn : List Nat → D)
    (m : MerkleMountainRange D) (data : List Nat) :
    Option (MerkleMountainRange D) :=
  append_leaf c m (hashFn data)

/-- Rust `get_node`: the guard is `level > self.max_height` (strict), after
which `self.layers[level]` is read unconditionally — a panic when
`level = max_height`, since there are only `max_height` layers. -/
def get_node {D : Type} (m : MerkleMountainRange D) (level index : Nat) :
    Option (Option D) :=
  if level > m.max_height then some none
  else
    match m.layers[level]? with
    | none => none
    | some l => if index < l.length then some l[index]? else some none

/-- Rust `get_level`: same `level > self.max_height` guard, then an
unconditional `&self.layers[level]`. -/
def get_level {D : Type} (m : MerkleMountainRange D) (level : Nat) :
    Option (Option (List D)) :=
  if level > m.max_height then some none
  else
    match m.layers[level]? with
    | none => none
    | some l => some (some l)

/-- The shared peak-collection loop of Rust `compute_root` and `get_peaks`:
for each level in `0..max_height` whose length is odd, take its last entry
(`.last().unwrap()`). -/
def peaksLoop {D : Type} :
    Nat → Nat → MerkleMountainRange D → List D → Option (List D)
  | 0, _, _, acc => some acc
  | fuel + 1, level, m, acc =>
    match m.layers[level]? with
    | none => none
    | some l =>
      if l.length % 2 = 1 then
        match l.getLast? with
        | none => none
        | some p => peaksLoop fuel (level + 1) m (acc ++ [p])
      else
        peaksLoop fuel (level + 1) m acc

/-- Rust `compute_root`: when level 0 is non-empty, collect the peaks, then
seed with `peak[0]` (panic when there is no peak) and fold the remaining
peaks in with `hash_node_pair`. -/
def compute_root {D : Type} (c : D → D → D) (m : MerkleMountainRange D) :
    Option (Option D) :=
  match m.layers[0]? with
  | none => none
  | some l0 =>
    if l0.isEmpty = false then
      match peaksLoop m.max_height 0 m [] with
      | none => none
      | some peak =>
        match peak[0]? with
        | none => none
        | some r0 => some (some ((peak.drop 1).foldl c r0))
    else some none

/-- Rust `get_peaks`: the same collection, returned as `Some(peaks)` when
level 0 is non-empty and `None` otherwise. -/
def get_peaks {D : Type} (m : MerkleMountainRange D) : Option (Option (List D)) :=
  match m.layers[0]? with
  | none => none
  | some l0 =>
    if l0.isEmpty = false then
      match peaksLoop m.max_height 0 m [] with
      | none => none
      | some peaks => some (some peaks)
    else some none

/-- The `for level in 0..max_height` loop of Rust `generate_proof`.  The Rust
break test is `current_index == self.layers[level].len() - 1` on `usize`
arithmetic, so for an empty level `len() - 1` wraps around and the test is
false; `idx + 1 = length` captures exactly that.  The sibling read
`self.layers[level][sibling_index]` panics when out of bounds. -/
def proofLoop {D : Type} (m : MerkleMountainRange D) :
    Nat → Nat → Nat → List D → Option (List D)
  | 0, _, _, acc => some acc
  | fuel + 1, level, idx, acc =>
    match m.layers[level]? with
    | none => none
    | some l =>
      if idx + 1 = l.length ∧ idx % 2 = 0 then some acc
      else
        match l[if idx % 2 = 0 then idx + 1 else idx - 1]? with
        | none => none
        | some s => proofLoop m fuel (level + 1) (idx / 2) (acc ++ [s])

/-- Rust `generate_proof`: `None` when the leaf index is out of range of
level 0 (reading `self.layers[0]` panics when there is no level 0). -/
def generate_proof {D : Type} (m : MerkleMountainRange D) (leaf_index : Nat) :
    Option (Option (List D)) :=
  match m.layers[0]? with
  | none => none
  | some l0 =>
    if leaf_index ≥ l0.length then some none
    else
      match proofLoop m m.max_height 0 leaf_index [] with
      | none => none
      | some p => some (some p)

/-- The sibling-walk loop of Rust `verify_proof`: combine as
`(current, sibling)` when `current_index % 2 == 0` (Rust truncated `%` on
`i32`, so `Int.tmod`) and `(sibling, current)` otherwise, then halve the
index with truncated division. -/
def walkI {D : Type} (c : D → D → D) : List D → D → Int → D
  | [], cur, _ => cur
  | s :: rest, cur, idx =>
    walkI c rest (if Int.tmod idx 2 = 0 then c cur s else c s cur) (Int.tdiv idx 2)

/-- Rust `verify_proof`: seeds `current_root` with `peaks[0]` (an unguarded
panic when `peaks` is empty), walks the proof from the leaf, folds the
caller-supplied peaks, and returns
`peaks.contains(&current_hash) && root == current_root`. -/
def verify_proof {D : Type} [DecidableEq D] (c : D → D → D) (root : D)
    (peaks : List D) (proof : List D) (leaf : D) (leaf_index : Int) :
    Option Bool :=
  match peaks[0]? with
  | none => none
  | some p0 =>
    some (decide (walkI c proof leaf leaf_index ∈ peaks) &&
          decide (root = (peaks.drop 1).foldl c p0))

/-!
  ## Specification-side definitions

  `nodeHash c f i j` is the digest of the perfect subtree of height `i`
  over the leaves `f (j * 2^i), …, f ((j+1) * 2^i - 1)`; `layerSpec` is the
  contents of one level after `n` appends, `peaksSpec` the peak sequence the
  spec describes, `buildN` the accumulator after appending
  `f 0, …, f (n-1)`.
-/

/-- Digest of node `j` of level `i` for the leaf sequence `f`. -/
def nodeHash {D : Type} (c : D → D → D) (f : Nat → D) : Nat → Nat → D
  | 0, j => f j
  | i + 1, j => c (nodeHash c f i (2 * j)) (nodeHash c f i (2 * j + 1))

/-- Expected contents of level `i` after `n` leaves: `n / 2^i` node hashes. -/
def layerSpec {D : Type} (c : D → D → D) (f : Nat → D) (n i : Nat) : List D :=
  (List.range (n / 2 ^ i)).map (nodeHash c f i)

/-- Expected peak sequence after `n` leaves: the last entry of every
odd-length level, in increasing level order. -/
def peaksSpec {D : Type} (c : D → D → D) (f : Nat → D) (n mh : Nat) : List D :=
  (List.range mh).filterMap fun i =>
    if (n / 2 ^ i) % 2 = 1 then some (nodeHash c f i (n / 2 ^ i - 1)) else none

/-- The accumulator after appending `f 0, …, f (n-1)` to `new mh`. -/
def buildN {D : Type} (c : D → D → D) (mh : Nat) (f : Nat → D) :
    Nat → Option (MerkleMountainRange D)
  | 0 => some (new D mh)
  | n + 1 =>
    match buildN c mh f n with
    | none => none
    | some m => append_leaf c m (f n)

/-- Sibling index at one level: `idx + 1` when `idx` is even, `idx - 1`
otherwise. -/
def sibIdx (idx : Nat) : Nat := if idx % 2 = 0 then idx + 1 else idx - 1

/-- The sibling digests collected by `generate_proof` over `t` levels,
starting at `level` with in-level index `idx`. -/
def sibs {D : Type} (c : D → D → D) (f : Nat → D) :
    Nat → Nat → Nat → List D
  | _, _, 0 => []
  | level, idx, t + 1 =>
    nodeHash c f level (sibIdx idx) :: sibs c f (level + 1) (idx / 2) t

/-- The proof walk on a `Nat` index (the `verify_proof` walk restricted to
non-negative indices). -/
def walkN {D : Type} (c : D → D → D) : List D → D → Nat → D
  | [], cur, _ => cur
  | s :: rest, cur, idx =>
    walkN c rest (if idx % 2 = 0 then c cur s else c s cur) (idx / 2)

/-- The spec's description of the peak fold used by `verify_proof`:
left-to-right fold of the caller-supplied peaks with `combine`, the first
peak as seed; absent when `peaks` is empty. -/
def foldPeaksSpec {D : Type} (c : D → D → D) : List D → Option D
  | [] => none
  | p :: ps => some (ps.foldl c p)

/-- The reachable-state invariant: every level holds exactly the expected
node hashes for the current leaf count `n`. -/
def goodState {D : Type} (c : D → D → D) (f : Nat → D) (n mh : Nat)
    (m : MerkleMountainRange D) : Prop :=
  m.max_height = mh ∧ m.layers.length = mh ∧
    ∀ i, i < mh → m.layers[i]? = some (layerSpec c f n i)


/-!
  ## Arithmetic helpers
-/

/-- If `2^l` divides `n` and the quotient is even, `2^(l+1)` divides `n`. -/
theorem two_pow_succ_dvd {n l : Nat} (hd : 2 ^ l ∣ n)
    (he : n / 2 ^ l % 2 = 0) : 2 ^ (l + 1) ∣ n := by
  obtain ⟨q, hq⟩ := hd
  have hp : 0 < 2 ^ l := Nat.pow_pos (by norm_num)
  have hql : q = n / 2 ^ l := by rw [hq, Nat.mul_div_cancel_left _ hp]
  obtain ⟨r, hr⟩ : 2 ∣ q := by rw [hql]; omega
  exact ⟨r, by rw [hq, hr, pow_succ]; ring⟩

/-- Exact division: `(n - 1) / k = n / k - 1` when `k` divides a positive
`n`. -/
theorem sub_one_div_of_dvd {n k : Nat} (hd : k ∣ n) (hn : 0 < n) :
    (n - 1) / k = n / k - 1 := by
  obtain ⟨q, hq⟩ := hd
  subst hq
  have hk : 0 < k := by
    rcases Nat.eq_zero_or_pos k with h | h
    · subst h; simp at hn
    · exact h
  rcases q with _ | q0
  · simp at hn
  · have hdist : k * (q0 + 1) = k * q0 + k := by ring
    have h1 : k * (q0 + 1) - 1 = k * q0 + (k - 1) := by omega
    rw [h1, Nat.mul_add_div hk, Nat.div_eq_of_lt (by omega),
      Nat.mul_div_cancel_left _ hk]
    omega

/-- When `k` does not divide `n`, decrementing `n` does not change `n / k`. -/
theorem sub_one_div_of_not_dvd {n k : Nat} (hd : ¬ k ∣ n) :
    (n - 1) / k = n / k := by
  rcases Nat.eq_zero_or_pos k with h | hk
  · subst h; simp
  · have hr : n % k ≠ 0 := fun h => hd (Nat.dvd_iff_mod_eq_zero.mpr h)
    have hmod : k * (n / k) + n % k = n := Nat.div_add_mod n k
    have hlt : n % k < k := Nat.mod_lt _ hk
    set d := n / k with hdv
    set r := n % k with hrv
    have h1 : n - 1 = k * d + (r - 1) := by omega
    rw [h1, Nat.mul_add_div hk, Nat.div_eq_of_lt (by omega), Nat.add_zero]

/-- Successive halving. -/
theorem div_pow_succ (n l : Nat) : n / 2 ^ l / 2 = n / 2 ^ (l + 1) := by
  rw [Nat.div_div_eq_div_mul, pow_succ]

/-- Once the carry loop stops (odd or short level), no higher power of two
divides the leaf count. -/
theorem not_two_pow_dvd_of_stop {n l i : Nat} (hd : 2 ^ l ∣ n) (hn : 0 < n)
    (hstop : ¬(2 ≤ n / 2 ^ l ∧ n / 2 ^ l % 2 = 0)) (hi : l < i) :
    ¬ 2 ^ i ∣ n := by
  intro hdi
  obtain ⟨r, hr⟩ := dvd_trans (pow_dvd_pow 2 (by omega : l + 1 ≤ i)) hdi
  have hp : 0 < 2 ^ l := Nat.pow_pos (by norm_num)
  have hq : n / 2 ^ l = 2 * r := by
    rw [hr, pow_succ, show 2 ^ l * 2 * r = 2 ^ l * (2 * r) by ring,
      Nat.mul_div_cancel_left _ hp]
  have hr1 : 0 < r := by
    rcases Nat.eq_zero_or_pos r with h | h
    · subst h; simp at hr; omega
    · exact h
  exact hstop ⟨by omega, by omega⟩

/-!
  ## Level-contents helpers
-/

/-- Length of the expected level contents. -/
theorem layerSpec_length {D : Type} (c : D → D → D) (f : Nat → D) (n i : Nat) :
    (layerSpec c f n i).length = n / 2 ^ i := by
  simp [layerSpec]

/-- Entry `j` of the expected level contents. -/
theorem layerSpec_get? {D : Type} (c : D → D → D) (f : Nat → D) {n i j : Nat}
    (h : j < n / 2 ^ i) :
    (layerSpec c f n i)[j]? = some (nodeHash c f i j) := by
  simp [layerSpec, List.getElem?_map, List.getElem?_range h]

/-- A non-empty expected level splits off its last entry. -/
theorem layerSpec_snoc {D : Type} (c : D → D → D) (f : Nat → D) {n i : Nat}
    (h : 0 < n / 2 ^ i) :
    layerSpec c f n i =
      (List.range (n / 2 ^ i - 1)).map (nodeHash c f i) ++
        [nodeHash c f i (n / 2 ^ i - 1)] := by
  rw [layerSpec, show n / 2 ^ i = (n / 2 ^ i - 1) + 1 by omega, List.range_succ]
  simp

/-- Last entry of a non-empty expected level. -/
theorem layerSpec_getLast? {D : Type} (c : D → D → D) (f : Nat → D) {n i : Nat}
    (h : 0 < n / 2 ^ i) :
    (layerSpec c f n i).getLast? = some (nodeHash c f i (n / 2 ^ i - 1)) := by
  rw [layerSpec_snoc c f h, List.getLast?_concat]

/-- A parent node is the combination of its two children. -/
theorem nodeHash_succ {D : Type} (c : D → D → D) (f : Nat → D) (i r : Nat) :
    nodeHash c f (i + 1) r =
      c (nodeHash c f i (2 * r)) (nodeHash c f i (2 * r + 1)) := rfl

/-- The freshly constructed accumulator is in the expected empty state. -/
theorem goodState_new {D : Type} (c : D → D → D) (f : Nat → D) (mh : Nat) :
    goodState c f 0 mh (new D mh) := by
  refine ⟨rfl, by simp [new], fun i hi => ?_⟩
  have h1 : (new D mh).layers[i]? = some [] := by
    simp [new, List.getElem?_replicate, hi]
  rw [h1, layerSpec, Nat.zero_div, List.range_zero, List.map_nil]

/-!
  ## The carry-propagation invariant
-/

/-- One carry step of `build_peaks`: at a level with an even length of at
least two, the loop pushes the combined pair, turning the stale next level
(contents for `n - 1` leaves) into the expected contents for `n` leaves. -/
theorem buildPeaksAux_carry {D : Type} (c : D → D → D) (f : Nat → D)
    {n level : Nat} {m : MerkleMountainRange D} (fuel : Nat)
    (hn : 0 < n)
    (hcur : m.layers[level]? = some (layerSpec c f n level))
    (hnxt : m.layers[level + 1]? = some (layerSpec c f (n - 1) (level + 1)))
    (hd : 2 ^ (level + 1) ∣ n)
    (hq2 : 2 ≤ n / 2 ^ level) (hqe : n / 2 ^ level % 2 = 0) :
    buildPeaksAux c (fuel + 1) level m =
      buildPeaksAux c fuel (level + 1)
        (setLayer m (level + 1) (layerSpec c f n (level + 1))) := by
  have hp : 0 < 2 ^ (level + 1) := Nat.pow_pos (by norm_num)
  have hk1 : 1 ≤ n / 2 ^ (level + 1) :=
    (Nat.one_le_div_iff hp).2 (Nat.le_of_dvd hn hd)
  have hq2k : n / 2 ^ level = 2 * (n / 2 ^ (level + 1)) := by
    rw [← div_pow_succ]; omega
  have hg2 : (layerSpec c f n level)[n / 2 ^ level - 2]? =
      some (nodeHash c f level (n / 2 ^ level - 2)) :=
    layerSpec_get? c f (by omega)
  have hg1 : (layerSpec c f n level)[n / 2 ^ level - 1]? =
      some (nodeHash c f level (n / 2 ^ level - 1)) :=
    layerSpec_get? c f (by omega)
  have hcomb : c (nodeHash c f level (n / 2 ^ level - 2))
      (nodeHash c f level (n / 2 ^ level - 1)) =
      nodeHash c f (level + 1) (n / 2 ^ (level + 1) - 1) := by
    rw [show n / 2 ^ level - 2 = 2 * (n / 2 ^ (level + 1) - 1) by omega,
      show n / 2 ^ level - 1 = 2 * (n / 2 ^ (level + 1) - 1) + 1 by omega]
    rfl
  have hlayer : layerSpec c f (n - 1) (level + 1) ++
      [nodeHash c f (level + 1) (n / 2 ^ (level + 1) - 1)] =
      layerSpec c f n (level + 1) := by
    rw [layerSpec_snoc c f (by omega : 0 < n / 2 ^ (level + 1))]
    rw [layerSpec, sub_one_div_of_dvd hd hn]
  have hcond : (layerSpec c f n level).length ≥ 2 ∧
      (layerSpec c f n level).length % 2 = 0 := by
    rw [layerSpec_length]; exact ⟨hq2, hqe⟩
  simp only [buildPeaksAux, hcur]
  rw [if_pos hcond]
  simp only [layerSpec_length, hg2, hg1, hnxt, hcomb, hlayer]

/-- The carry loop re-establishes the full level invariant whenever the new
leaf count stays below `2 ^ max_height`. -/
theorem buildPeaksAux_spec {D : Type} (c : D → D → D) (f : Nat → D) {mh n : Nat}
    (hn : 0 < n) (hnm : n < 2 ^ mh) (fuel : Nat) :
    ∀ level (m : MerkleMountainRange D),
      level + fuel = mh → m.max_height = mh → m.layers.length = mh →
      2 ^ level ∣ n →
      (∀ i, i ≤ level → i < mh → m.layers[i]? = some (layerSpec c f n i)) →
      (∀ i, level < i → i < mh → m.layers[i]? = some (layerSpec c f (n - 1) i)) →
      ∃ m', buildPeaksAux c fuel level m = some m' ∧ goodState c f n mh m' := by
  induction fuel with
  | zero =>
    intro level m hfl hmx hlen _ hlow _
    exact ⟨m, rfl, hmx, hlen, fun i hi => hlow i (by omega) hi⟩
  | succ fuel ih =>
    intro level m hfl hmx hlen hdvd hlow hhigh
    have hlev : level < mh := by omega
    have hcur : m.layers[level]? = some (layerSpec c f n level) :=
      hlow level (le_refl _) hlev
    by_cases hgo : 2 ≤ n / 2 ^ level ∧ n / 2 ^ level % 2 = 0
    · -- carry propagates one level up
      have hd1 : 2 ^ (level + 1) ∣ n := two_pow_succ_dvd hdvd hgo.2
      have hlev1 : level + 1 < mh := by
        have h1 : 2 ^ (level + 1) ≤ n := Nat.le_of_dvd hn hd1
        have h2 : 2 ^ (level + 1) < 2 ^ mh := lt_of_le_of_lt h1 hnm
        exact (Nat.pow_lt_pow_iff_right (by norm_num)).1 h2
      have hnxt : m.layers[level + 1]? = some (layerSpec c f (n - 1) (level + 1)) :=
        hhigh (level + 1) (by omega) hlev1
      rw [buildPeaksAux_carry c f fuel hn hcur hnxt hd1 hgo.1 hgo.2]
      have hset : ∀ l : List D,
          (setLayer m (level + 1) l).layers = m.layers.set (level + 1) l :=
        fun _ => rfl
      refine ih (level + 1) _ (by omega) hmx (by simp [setLayer, hlen]) hd1
        (fun i hi him => ?_) (fun i hi him => ?_)
      · rcases Nat.lt_or_ge i (level + 1) with h | h
        · rw [hset, List.getElem?_set_ne (by omega)]
          exact hlow i (by omega) him
        · have hei : level + 1 = i := by omega
          rw [hset, hei, List.getElem?_set_eq_of_lt _ (by omega)]
      · rw [hset, List.getElem?_set_ne (by omega)]
        exact hhigh i (by omega) him
    · -- the loop stops here; stale higher levels are already correct
      have hstep : buildPeaksAux c (fuel + 1) level m = some m := by
        simp only [buildPeaksAux, hcur]
        rw [if_neg]
        rw [layerSpec_length]
        exact hgo
      refine ⟨m, hstep, hmx, hlen, fun i him => ?_⟩
      rcases Nat.lt_or_ge level i with h | h
      · have hnd : ¬ 2 ^ i ∣ n := not_two_pow_dvd_of_stop hdvd hn hgo h
        have heq : layerSpec c f (n - 1) i = layerSpec c f n i := by
          rw [layerSpec, layerSpec, sub_one_div_of_not_dvd hnd]
        rw [hhigh i h him, heq]
      · exact hlow i h him

/-- `append_leaf` succeeds and re-establishes the invariant while the new
count stays below capacity. -/
theorem append_leaf_good {D : Type} (c : D → D → D) (f : Nat → D) {mh n : Nat}
    {m : MerkleMountainRange D} (hg : goodState c f n mh m)
    (hnm : n + 1 < 2 ^ mh) :
    ∃ m', append_leaf c m (f n) = some m' ∧ goodState c f (n + 1) mh m' := by
  obtain ⟨hmx, hlen, hlayers⟩ := hg
  have hmh0 : 0 < mh := by
    rcases Nat.eq_zero_or_pos mh with h | h
    · subst h; simp at hnm
    · exact h
  have h0 : m.layers[0]? = some (layerSpec c f n 0) := hlayers 0 hmh0
  have hl0 : layerSpec c f n 0 ++ [f n] = layerSpec c f (n + 1) 0 := by
    simp only [layerSpec, pow_zero, Nat.div_one, List.range_succ, List.map_append]
    rfl
  have hset : ∀ l : List D, (setLayer m 0 l).layers = m.layers.set 0 l := fun _ => rfl
  have hbp : build_peaks c (setLayer m 0 (layerSpec c f n 0 ++ [f n])) =
      buildPeaksAux c mh 0 (setLayer m 0 (layerSpec c f (n + 1) 0)) := by
    rw [hl0]
    simp only [build_peaks, setLayer, hmx]
  obtain ⟨m', hm', hg'⟩ :=
    buildPeaksAux_spec c f (by omega) hnm mh 0
      (setLayer m 0 (layerSpec c f (n + 1) 0)) (by omega) hmx
      (by simp [setLayer, hlen]) (one_dvd _)
      (fun i hi him => by
        have hi0 : i = 0 := by omega
        subst hi0
        rw [hset, List.getElem?_set_eq_of_lt _ (by omega)])
      (fun i hi him => by
        rw [hset, List.getElem?_set_ne (by omega), Nat.add_sub_cancel]
        exact hlayers i him)
  refine ⟨m', ?_, hg'⟩
  rw [append_leaf, h0]
  simpa [hbp] using hm'

/-- After `n < 2 ^ max_height` appends the accumulator exists and satisfies
the level invariant. -/
theorem buildN_good {D : Type} (c : D → D → D) (f : Nat → D) (mh : Nat) :
    ∀ n, n < 2 ^ mh → ∃ m, buildN c mh f n = some m ∧ goodState c f n mh m
  | 0, _ => ⟨new D mh, rfl, goodState_new c f mh⟩
  | n + 1, h => by
    obtain ⟨m, hm, hg⟩ := buildN_good c f mh n (by omega)
    obtain ⟨m', hm', hg'⟩ := append_leaf_good c f hg h
    exact ⟨m', by simp only [buildN, hm]; exact hm', hg'⟩

/-- When the leaf count reaches exactly `2 ^ max_height`, every level is
even, so the carry loop runs off the top and pushes into the non-existent
level `max_height`: an out-of-bounds panic. -/
theorem buildPeaksAux_overflow {D : Type} (c : D → D → D) (f : Nat → D)
    {mh : Nat} (fuel : Nat) :
    ∀ level (m : MerkleMountainRange D), level + fuel = mh →
      m.layers.length = mh → level < mh →
      (∀ i, i ≤ level → i < mh → m.layers[i]? = some (layerSpec c f (2 ^ mh) i)) →
      (∀ i, level < i → i < mh →
        m.layers[i]? = some (layerSpec c f (2 ^ mh - 1) i)) →
      buildPeaksAux c fuel level m = none := by
  induction fuel with
  | zero => intro level m hfl hlen hlev _ _; omega
  | succ fuel ih =>
    intro level m hfl hlen hlev hlow hhigh
    have hNpos : 0 < 2 ^ mh := Nat.pow_pos (by norm_num)
    have hq : 2 ^ mh / 2 ^ level = 2 ^ (mh - level) :=
      Nat.pow_div (by omega) (by norm_num)
    have hml : 1 ≤ mh - level := by omega
    have hqval : 2 ^ (mh - level) = 2 * 2 ^ (mh - level - 1) := by
      rw [← pow_succ']
      congr 1
      omega
    have hq2 : 2 ≤ 2 ^ mh / 2 ^ level := by
      rw [hq, hqval]
      have : 1 ≤ 2 ^ (mh - level - 1) := Nat.pow_pos (by norm_num)
      omega
    have hqe : 2 ^ mh / 2 ^ level % 2 = 0 := by
      rw [hq, hqval]
      omega
    have hcur : m.layers[level]? = some (layerSpec c f (2 ^ mh) level) :=
      hlow level (le_refl _) hlev
    rcases Nat.lt_or_ge (level + 1) mh with hlev1 | hlev1
    · -- carry continues into an existing level
      have hd1 : 2 ^ (level + 1) ∣ 2 ^ mh := pow_dvd_pow 2 (by omega)
      have hnxt : m.layers[level + 1]? =
          some (layerSpec c f (2 ^ mh - 1) (level + 1)) :=
        hhigh (level + 1) (by omega) hlev1
      rw [buildPeaksAux_carry c f fuel hNpos hcur hnxt hd1 hq2 hqe]
      have hset : ∀ l : List D,
          (setLayer m (level + 1) l).layers = m.layers.set (level + 1) l :=
        fun _ => rfl
      refine ih (level + 1) _ (by omega) (by simp [setLayer, hlen]) hlev1
        (fun i hi him => ?_) (fun i hi him => ?_)
      · rcases Nat.lt_or_ge i (level + 1) with h | h
        · rw [hset, List.getElem?_set_ne (by omega)]
          exact hlow i (by omega) him
        · have hei : level + 1 = i := by omega
          rw [hset, hei, List.getElem?_set_eq_of_lt _ (by omega)]
      · rw [hset, List.getElem?_set_ne (by omega)]
        exact hhigh i (by omega) him
    · -- the push targets level `max_height`: out of bounds
      have hei : level + 1 = mh := by omega
      have hnone : m.layers[level + 1]? = none := by
        rw [List.getElem?_eq_none]
        omega
      have hg2 : (layerSpec c f (2 ^ mh) level)[2 ^ mh / 2 ^ level - 2]? =
          some (nodeHash c f level (2 ^ mh / 2 ^ level - 2)) :=
        layerSpec_get? c f (by omega)
      have hg1 : (layerSpec c f (2 ^ mh) level)[2 ^ mh / 2 ^ level - 1]? =
          some (nodeHash c f level (2 ^ mh / 2 ^ level - 1)) :=
        layerSpec_get? c f (by omega)
      have hcond : (layerSpec c f (2 ^ mh) level).length ≥ 2 ∧
          (layerSpec c f (2 ^ mh) level).length % 2 = 0 := by
        rw [layerSpec_length]
        exact ⟨hq2, hqe⟩
      simp only [buildPeaksAux, hcur]
      rw [if_pos hcond]
      simp only [layerSpec_length, hg2, hg1, hnone]

/-- Pushing one more leaf extends the expected level-0 contents. -/
theorem layerSpec_zero_snoc {D : Type} (c : D → D → D) (f : Nat → D) (n : Nat) :
    layerSpec c f n 0 ++ [f n] = layerSpec c f (n + 1) 0 := by
  simp only [layerSpec, pow_zero, Nat.div_one, List.range_succ, List.map_append]
  rfl

/-- Appending the `2 ^ max_height`-th leaf panics inside `build_peaks`. -/
theorem buildN_overflow {D : Type} (c : D → D → D) (f : Nat → D) {mh : Nat}
    (hmh : 0 < mh) :
    buildN c mh f (2 ^ mh) = none := by
  obtain ⟨m, hm, hmx, hlen, hlayers⟩ := buildN_good c f mh (2 ^ mh - 1)
    (by have : 0 < 2 ^ mh := Nat.pow_pos (by norm_num); omega)
  have hNpos : 0 < 2 ^ mh := Nat.pow_pos (by norm_num)
  have h2 : 2 ^ mh = (2 ^ mh - 1) + 1 := by omega
  rw [h2]
  simp only [buildN, hm]
  have h0 : m.layers[0]? = some (layerSpec c f (2 ^ mh - 1) 0) := hlayers 0 hmh
  have hl0 : layerSpec c f (2 ^ mh - 1) 0 ++ [f (2 ^ mh - 1)] =
      layerSpec c f (2 ^ mh) 0 := by
    rw [layerSpec_zero_snoc, show 2 ^ mh - 1 + 1 = 2 ^ mh by omega]
  have hset : ∀ l : List D, (setLayer m 0 l).layers = m.layers.set 0 l :=
    fun _ => rfl
  simp only [append_leaf, h0]
  have hbp : build_peaks c (setLayer m 0 (layerSpec c f (2 ^ mh - 1) 0 ++
      [f (2 ^ mh - 1)])) =
      buildPeaksAux c mh 0 (setLayer m 0 (layerSpec c f (2 ^ mh) 0)) := by
    rw [hl0]
    simp only [build_peaks, setLayer, hmx]
  rw [hbp]
  refine buildPeaksAux_overflow c f mh 0 _ (by omega) (by simp [setLayer, hlen])
    hmh (fun i hi him => ?_) (fun i hi him => ?_)
  · have hi0 : i = 0 := by omega
    subst hi0
    rw [hset, List.getElem?_set_eq_of_lt _ (by omega)]
  · rw [hset, List.getElem?_set_ne (by omega)]
    exact hlayers i him

/-!
  ## Peaks and root
-/

/-- A single level's contribution to the peak scan. -/
def peakAt {D : Type} (c : D → D → D) (f : Nat → D) (n i : Nat) : Option D :=
  if (n / 2 ^ i) % 2 = 1 then some (nodeHash c f i (n / 2 ^ i - 1)) else none

/-- `peaksSpec` is the filtered scan of `peakAt` over all levels. -/
theorem peaksSpec_eq {D : Type} (c : D → D → D) (f : Nat → D) (n mh : Nat) :
    peaksSpec c f n mh = (List.range mh).filterMap (peakAt c f n) := rfl

/-- The peak-collection loop returns the expected peaks of the scanned
levels, appended to the accumulator. -/
theorem peaksLoop_spec {D : Type} (c : D → D → D) (f : Nat → D) {mh n : Nat}
    {m : MerkleMountainRange D}
    (hlayers : ∀ i, i < mh → m.layers[i]? = some (layerSpec c f n i))
    (fuel : Nat) :
    ∀ level acc, level + fuel = mh →
      peaksLoop fuel level m acc =
        some (acc ++ (List.range' level fuel).filterMap (peakAt c f n)) := by
  induction fuel with
  | zero => intro level acc _; simp [peaksLoop]
  | succ fuel ih =>
    intro level acc hfl
    have hcur := hlayers level (by omega)
    have hrange : List.range' level (fuel + 1) = level :: List.range' (level + 1) fuel :=
      rfl
    simp only [peaksLoop, hcur, layerSpec_length, hrange, List.filterMap_cons]
    by_cases hodd : (n / 2 ^ level) % 2 = 1
    · have hpos : 0 < n / 2 ^ level := by
        rcases Nat.eq_zero_or_pos (n / 2 ^ level) with h | h
        · rw [h] at hodd; simp at hodd
        · exact h
      have hlast := layerSpec_getLast? c f hpos
      rw [if_pos hodd]
      simp only [hlast]
      rw [ih (level + 1) _ (by omega)]
      simp [peakAt, hodd]
    · rw [if_neg hodd]
      rw [ih (level + 1) _ (by omega)]
      simp [peakAt, hodd]

/-- The top peak sits at level `log2 n`: there the level holds exactly one
node. -/
theorem div_pow_log2 {n : Nat} (hn : 0 < n) : n / 2 ^ Nat.log2 n = 1 := by
  have h1 : 2 ^ Nat.log2 n ≤ n := Nat.log2_self_le (by omega)
  have h2 : n < 2 ^ (Nat.log2 n + 1) := Nat.lt_log2_self
  have h3 : 2 ^ (Nat.log2 n + 1) = 2 * 2 ^ Nat.log2 n := by rw [pow_succ]; ring
  have hp : 0 < 2 ^ Nat.log2 n := Nat.pow_pos (by norm_num)
  have hge : 1 ≤ n / 2 ^ Nat.log2 n := (Nat.one_le_div_iff hp).2 h1
  have hlt : n / 2 ^ Nat.log2 n < 2 := Nat.div_lt_of_lt_mul (by omega)
  omega

/-- The expected peak sequence is non-empty for a positive leaf count below
capacity. -/
theorem peaksSpec_ne_nil {D : Type} (c : D → D → D) (f : Nat → D) {n mh : Nat}
    (hn : 0 < n) (hnm : n < 2 ^ mh) : peaksSpec c f n mh ≠ [] := by
  have hlog : Nat.log2 n < mh := (Nat.log2_lt (by omega)).2 hnm
  have hdiv : n / 2 ^ Nat.log2 n = 1 := div_pow_log2 hn
  have hmem : nodeHash c f (Nat.log2 n) (n / 2 ^ Nat.log2 n - 1) ∈
      peaksSpec c f n mh := by
    rw [peaksSpec_eq]
    exact List.mem_filterMap.mpr ⟨Nat.log2 n, List.mem_range.mpr hlog,
      by rw [peakAt, if_pos (by omega)]⟩
  exact List.ne_nil_of_mem hmem

/-- `get_peaks` on a reachable non-empty accumulator returns exactly the
expected peak sequence. -/
theorem get_peaks_spec {D : Type} (c : D → D → D) (f : Nat → D) {mh n : Nat}
    {m : MerkleMountainRange D} (hg : goodState c f n mh m) (hn : 0 < n)
    (hnm : n < 2 ^ mh) :
    get_peaks m = some (some (peaksSpec c f n mh)) := by
  obtain ⟨hmx, hlen, hlayers⟩ := hg
  have hmh0 : 0 < mh := by
    rcases Nat.eq_zero_or_pos mh with h | h
    · subst h; simp at hnm; omega
    · exact h
  have h0 : m.layers[0]? = some (layerSpec c f n 0) := hlayers 0 hmh0
  have hne : (layerSpec c f n 0).isEmpty = false := by
    rw [List.isEmpty_eq_false_iff_exists_mem]
    refine ⟨nodeHash c f 0 0, ?_⟩
    rw [layerSpec]
    exact List.mem_map_of_mem _ (List.mem_range.mpr (by simpa using hn))
  have hloop := peaksLoop_spec c f hlayers mh 0 [] (by omega)
  rw [get_peaks, h0]
  simp only [hne, if_pos rfl]
  rw [hmx, hloop]
  simp [peaksSpec_eq, List.range_eq_range']

/-- `compute_root` on a reachable non-empty accumulator folds the expected
peak sequence left to right, seeded with the lowest peak. -/
theorem compute_root_spec {D : Type} (c : D → D → D) (f : Nat → D) {mh n : Nat}
    {m : MerkleMountainRange D} (hg : goodState c f n mh m) (hn : 0 < n)
    (hnm : n < 2 ^ mh) :
    ∃ p ps, peaksSpec c f n mh = p :: ps ∧
      compute_root c m = some (some (ps.foldl c p)) := by
  obtain ⟨hmx, hlen, hlayers⟩ := hg
  have hmh0 : 0 < mh := by
    rcases Nat.eq_zero_or_pos mh with h | h
    · subst h; simp at hnm; omega
    · exact h
  have h0 : m.layers[0]? = some (layerSpec c f n 0) := hlayers 0 hmh0
  have hne : (layerSpec c f n 0).isEmpty = false := by
    rw [List.isEmpty_eq_false_iff_exists_mem]
    refine ⟨nodeHash c f 0 0, ?_⟩
    rw [layerSpec]
    exact List.mem_map_of_mem _ (List.mem_range.mpr (by simpa using hn))
  have hloop := peaksLoop_spec c f hlayers mh 0 [] (by omega)
  obtain ⟨p, ps, hps⟩ : ∃ p ps, peaksSpec c f n mh = p :: ps := by
    rcases hps : peaksSpec c f n mh with _ | ⟨p, ps⟩
    · exact absurd hps (peaksSpec_ne_nil c f hn hnm)
    · exact ⟨p, ps, rfl⟩
  refine ⟨p, ps, hps, ?_⟩
  rw [compute_root, h0]
  simp only [hne, if_pos rfl]
  rw [hmx, hloop]
  simp only [List.nil_append, ← List.range_eq_range', ← peaksSpec_eq, hps]
  simp

/-!
  ## Proof generation
-/

/-- Halving twice composes. -/
theorem div_two_pow_succ (idx t : Nat) : idx / 2 / 2 ^ t = idx / 2 ^ (t + 1) := by
  rw [Nat.div_div_eq_div_mul, pow_succ']

/-- The proof-generation loop, on a reachable accumulator, walks up to the
first level where the current node is the unpaired last entry (the
containing peak), collecting exactly the sibling digests `sibs`; `t` is the
number of levels climbed. -/
theorem proofLoop_spec {D : Type} (c : D → D → D) (f : Nat → D) {mh n : Nat}
    {m : MerkleMountainRange D}
    (hlayers : ∀ i, i < mh → m.layers[i]? = some (layerSpec c f n i))
    (hnm : n < 2 ^ mh) (fuel : Nat) :
    ∀ level idx acc, level + fuel = mh → idx < n / 2 ^ level →
      ∃ t, proofLoop m fuel level idx acc = some (acc ++ sibs c f level idx t) ∧
        idx / 2 ^ t + 1 = n / 2 ^ (level + t) ∧ (idx / 2 ^ t) % 2 = 0 ∧
        level + t < mh := by
  induction fuel with
  | zero =>
    intro level idx acc hfl hidx
    have hz : n / 2 ^ mh = 0 := Nat.div_eq_of_lt hnm
    have hlm : level = mh := by omega
    subst hlm
    omega
  | succ fuel ih =>
    intro level idx acc hfl hidx
    have hlev : level < mh := by omega
    have hcur := hlayers level hlev
    simp only [proofLoop, hcur, layerSpec_length]
    by_cases hpar : idx % 2 = 0
    · by_cases hbrk : idx + 1 = n / 2 ^ level
      · -- the current node is an unpaired last entry: the containing peak
        rw [if_pos ⟨hbrk, hpar⟩]
        refine ⟨0, by simp [sibs], by simpa using hbrk, by simpa using hpar,
          by omega⟩
      · -- even, not last: right sibling exists
        rw [if_neg (by tauto)]
        have hsib : (layerSpec c f n level)[if idx % 2 = 0 then idx + 1
            else idx - 1]? = some (nodeHash c f level (idx + 1)) := by
          rw [if_pos hpar]
          exact layerSpec_get? c f (by omega)
        simp only [hsib]
        obtain ⟨t, hrun, harith, hpar2, hlt⟩ :=
          ih (level + 1) (idx / 2) (acc ++ [nodeHash c f level (idx + 1)])
            (by omega) (by rw [← div_pow_succ]; omega)
        refine ⟨t + 1, ?_, ?_, ?_, by omega⟩
        · rw [hrun]
          have hsibs : sibs c f level idx (t + 1) =
              nodeHash c f level (sibIdx idx) :: sibs c f (level + 1) (idx / 2) t :=
            rfl
          rw [hsibs, sibIdx, if_pos hpar]
          simp
        · rw [div_two_pow_succ] at harith
          rw [show level + (t + 1) = level + 1 + t by omega]
          exact harith
        · rw [div_two_pow_succ] at hpar2
          exact hpar2
    · -- odd: left sibling exists, no break possible
      rw [if_neg (by tauto)]
      have hsib : (layerSpec c f n level)[if idx % 2 = 0 then idx + 1
          else idx - 1]? = some (nodeHash c f level (idx - 1)) := by
        rw [if_neg hpar]
        exact layerSpec_get? c f (by omega)
      simp only [hsib]
      obtain ⟨t, hrun, harith, hpar2, hlt⟩ :=
        ih (level + 1) (idx / 2) (acc ++ [nodeHash c f level (idx - 1)])
          (by omega) (by rw [← div_pow_succ]; omega)
      refine ⟨t + 1, ?_, ?_, ?_, by omega⟩
      · rw [hrun]
        have hsibs : sibs c f level idx (t + 1) =
            nodeHash c f level (sibIdx idx) :: sibs c f (level + 1) (idx / 2) t :=
          rfl
        rw [hsibs, sibIdx, if_neg hpar]
        simp
      · rw [div_two_pow_succ] at harith
        rw [show level + (t + 1) = level + 1 + t by omega]
        exact harith
      · rw [div_two_pow_succ] at hpar2
        exact hpar2

/-!
  ## The verification walk
-/

/-- Walking the generated sibling list from a node recomputes the subtree
hash `t` levels up. -/
theorem walkN_sibs {D : Type} (c : D → D → D) (f : Nat → D) :
    ∀ t level idx, walkN c (sibs c f level idx t) (nodeHash c f level idx) idx =
      nodeHash c f (level + t) (idx / 2 ^ t) := by
  intro t
  induction t with
  | zero => intro level idx; simp [sibs, walkN]
  | succ t ih =>
    intro level idx
    have hstep : sibs c f level idx (t + 1) =
        nodeHash c f level (sibIdx idx) :: sibs c f (level + 1) (idx / 2) t := rfl
    rw [hstep]
    by_cases hpar : idx % 2 = 0
    · have hcomb : c (nodeHash c f level idx) (nodeHash c f level (idx + 1)) =
          nodeHash c f (level + 1) (idx / 2) := by
        rw [nodeHash_succ, show 2 * (idx / 2) = idx by omega]
      rw [walkN, if_pos hpar, sibIdx, if_pos hpar, hcomb, ih (level + 1) (idx / 2),
        div_two_pow_succ, show level + 1 + t = level + (t + 1) by omega]
    · have hcomb : c (nodeHash c f level (idx - 1)) (nodeHash c f level idx) =
          nodeHash c f (level + 1) (idx / 2) := by
        rw [nodeHash_succ, show 2 * (idx / 2) = idx - 1 by omega,
          show idx - 1 + 1 = idx by omega]
      rw [walkN, if_neg hpar, sibIdx, if_neg hpar, hcomb, ih (level + 1) (idx / 2),
        div_two_pow_succ, show level + 1 + t = level + (t + 1) by omega]

/-- On a non-negative index the `i32` walk of `verify_proof` agrees with the
`Nat` walk. -/
theorem walkI_natCast {D : Type} (c : D → D → D) :
    ∀ (pf : List D) (cur : D) (k : Nat),
      walkI c pf cur (k : Int) = walkN c pf cur k := by
  intro pf
  induction pf with
  | nil => intro cur k; rfl
  | cons s rest ih =>
    intro cur k
    have hmod : Int.tmod (k : Int) 2 = ((k % 2 : Nat) : Int) := rfl
    have hdiv : Int.tdiv (k : Int) 2 = ((k / 2 : Nat) : Int) := rfl
    simp only [walkI, walkN, hmod, hdiv]
    by_cases hpar : k % 2 = 0
    · rw [if_pos (show ((k % 2 : Nat) : Int) = 0 by rw [hpar]; rfl), if_pos hpar]
      exact ih _ (k / 2)
    · rw [if_neg (show ¬((k % 2 : Nat) : Int) = 0 from fun h =>
        hpar (by exact_mod_cast h)), if_neg hpar]
      exact ih _ (k / 2)

/-- `get_node` at level 0 returns the leaf digest on a reachable
accumulator. -/
theorem get_node_leaf {D : Type} (c : D → D → D) (f : Nat → D) {mh n i : Nat}
    {m : MerkleMountainRange D} (hg : goodState c f n mh m) (hmh0 : 0 < mh)
    (hi : i < n) :
    get_node m 0 i = some (some (f i)) := by
  obtain ⟨hmx, hlen, hlayers⟩ := hg
  have h0 : m.layers[0]? = some (layerSpec c f n 0) := hlayers 0 hmh0
  have hg0 : (layerSpec c f n 0)[i]? = some (nodeHash c f 0 i) :=
    layerSpec_get? c f (by simpa using hi)
  rw [get_node, if_neg (by omega)]
  simp only [h0]
  rw [if_pos (by rw [layerSpec_length]; simpa using hi), hg0]
  rfl

/-- `generate_proof` on a reachable accumulator returns the sibling walk up
to the containing peak, at a level `t` where the walked index is the
unpaired last entry. -/
theorem generate_proof_spec {D : Type} (c : D → D → D) (f : Nat → D)
    {mh n i : Nat} {m : MerkleMountainRange D} (hg : goodState c f n mh m)
    (hnm : n < 2 ^ mh) (hi : i < n) :
    ∃ t, generate_proof m i = some (some (sibs c f 0 i t)) ∧
      i / 2 ^ t + 1 = n / 2 ^ t ∧ (i / 2 ^ t) % 2 = 0 ∧ t < mh := by
  obtain ⟨hmx, hlen, hlayers⟩ := hg
  have hmh0 : 0 < mh := by
    rcases Nat.eq_zero_or_pos mh with h | h
    · subst h; simp at hnm; omega
    · exact h
  have h0 : m.layers[0]? = some (layerSpec c f n 0) := hlayers 0 hmh0
  obtain ⟨t, hrun, harith, hpar, hlt⟩ :=
    proofLoop_spec c f hlayers hnm mh 0 i [] (by omega) (by simpa using hi)
  refine ⟨t, ?_, by simpa using harith, hpar, by simpa using hlt⟩
  simp only [generate_proof, h0, layerSpec_length]
  rw [if_neg (by rw [pow_zero, Nat.div_one]; omega)]
  rw [hmx, hrun]
  simp

/-- The successor of an even number is odd. -/
theorem succ_of_even_odd {a b : Nat} (h1 : a + 1 = b) (h2 : a % 2 = 0) :
    b % 2 = 1 := by omega

/-- The digest reached by the sibling walk is the peak of its stopping
level, hence a member of the expected peak sequence. -/
theorem walked_mem_peaksSpec {D : Type} (c : D → D → D) (f : Nat → D)
    {n mh i t : Nat} (harith : i / 2 ^ t + 1 = n / 2 ^ t)
    (hpar : (i / 2 ^ t) % 2 = 0) (hlt : t < mh) :
    nodeHash c f t (i / 2 ^ t) ∈ peaksSpec c f n mh := by
  rw [peaksSpec_eq]
  refine List.mem_filterMap.mpr ⟨t, List.mem_range.mpr hlt, ?_⟩
  have hodd : (n / 2 ^ t) % 2 = 1 := by
    have h := succ_of_even_odd harith hpar
    exact h
  rw [peakAt, if_pos hodd]
  have hidx : n / 2 ^ t - 1 = i / 2 ^ t := by
    rw [← harith]
    exact Nat.add_sub_cancel _ _
  rw [hidx]

/-- `verify_proof` accepts when the supplied root is the fold of the
supplied non-empty peaks and the walked hash is one of them. -/
theorem verify_proof_true {D : Type} [DecidableEq D] (c : D → D → D)
    {peaks pf : List D} {leaf : D} {k : Nat} {root p : D} {ps : List D}
    (hpk : peaks = p :: ps) (hroot : root = ps.foldl c p)
    (hmem : walkN c pf leaf k ∈ peaks) :
    verify_proof c root peaks pf leaf (k : Int) = some true := by
  subst hpk hroot
  simp only [verify_proof, List.getElem?_cons_zero]
  rw [walkI_natCast]
  simp [hmem]

/-- C1: for every accumulator with at least one leaf and leaf count below
`2 ^ max_height`, and every leaf index `i` below the length of level 0, the
round trip
`verify_proof (compute_root) (get_peaks) (generate_proof i) (get_node 0 i) i`
returns `true` (and every one of those calls succeeds). -/
theorem c1_round_trip {D : Type} [DecidableEq D] (c : D → D → D) (f : Nat → D)
    (mh n i : Nat) (hn : 0 < n) (hnm : n < 2 ^ mh) (hi : i < n) :
    ∃ (m : MerkleMountainRange D) (root : D) (peaks pf : List D) (leaf : D),
      buildN c mh f n = some m ∧
      compute_root c m = some (some root) ∧
      get_peaks m = some (some peaks) ∧
      generate_proof m i = some (some pf) ∧
      get_node m 0 i = some (some leaf) ∧
      verify_proof c root peaks pf leaf (i : Int) = some true := by
  obtain ⟨m, hm, hg⟩ := buildN_good c f mh n hnm
  have hmh0 : 0 < mh := by
    rcases Nat.eq_zero_or_pos mh with h | h
    · subst h; simp at hnm; omega
    · exact h
  obtain ⟨p, ps, hps, hroot⟩ := compute_root_spec c f hg hn hnm
  have hpeaks := get_peaks_spec c f hg hn hnm
  obtain ⟨t, hpf, harith, hpar, hlt⟩ := generate_proof_spec c f hg hnm hi
  have hleaf := get_node_leaf c f hg hmh0 hi
  refine ⟨m, ps.foldl c p, peaksSpec c f n mh, sibs c f 0 i t, f i,
    hm, hroot, hpeaks, hpf, hleaf, ?_⟩
  have hwalk : walkN c (sibs c f 0 i t) (f i) i = nodeHash c f t (i / 2 ^ t) := by
    have h := walkN_sibs c f t 0 i
    rw [show nodeHash c f 0 i = f i from rfl, zero_add] at h
    exact h
  exact verify_proof_true c hps rfl
    (by rw [hwalk]; exact walked_mem_peaksSpec c f harith hpar hlt)

/-- C1 witness at a concrete instance. -/
theorem c1_round_trip_w :
    0 < 5 ∧ 5 < 2 ^ 3 ∧ 3 < 5 ∧
    ∃ (m : MerkleMountainRange Nat) (root : Nat) (peaks pf : List Nat)
      (leaf : Nat),
      buildN (fun a b => 2 * a + 3 * b + 1) 3 (fun k => k) 5 = some m ∧
      compute_root (fun a b => 2 * a + 3 * b + 1) m = some (some root) ∧
      get_peaks m = some (some peaks) ∧
      generate_proof m 3 = some (some pf) ∧
      get_node m 0 3 = some (some leaf) ∧
      verify_proof (fun a b => 2 * a + 3 * b + 1) root peaks pf leaf
        ((3 : Nat) : Int) = some true :=
  ⟨by decide, by decide, by decide,
    c1_round_trip (fun a b => 2 * a + 3 * b + 1) (fun k => k) 3 5 3
      (by decide) (by decide) (by decide)⟩

/-- C2: for every call of `verify_proof` with non-empty peaks, the result is
true iff the hash walked from the leaf (combining `(current, sibling)` at an
even index, `(sibling, current)` at an odd one, halving each step) is a
member of the caller-supplied peaks, and the left-to-right fold of the
caller-supplied peaks (first peak as seed) equals `root`. -/
theorem c2_verify_iff {D : Type} [DecidableEq D] (c : D → D → D) (root : D)
    (peaks pf : List D) (leaf : D) (idx : Int) (hne : peaks ≠ []) :
    verify_proof c root peaks pf leaf idx = some true ↔
      (walkI c pf leaf idx ∈ peaks ∧ foldPeaksSpec c peaks = some root) := by
  obtain ⟨p, ps, rfl⟩ : ∃ p ps, peaks = p :: ps := by
    rcases peaks with _ | ⟨p, ps⟩
    · exact absurd rfl hne
    · exact ⟨p, ps, rfl⟩
  simp only [verify_proof, List.getElem?_cons_zero, foldPeaksSpec,
    List.drop_one, List.tail_cons, Option.some_inj, Bool.and_eq_true,
    decide_eq_true_eq]
  constructor
  · rintro ⟨h1, h2⟩
    exact ⟨h1, h2.symm⟩
  · rintro ⟨h1, h2⟩
    exact ⟨h1, h2.symm⟩

/-- C2 witness at a concrete instance. -/
theorem c2_verify_iff_w :
    (([4] : List Nat) ≠ []) ∧
    (verify_proof (fun a b => 2 * a + 3 * b + 1) 4 [4] [1] 0 0 = some true ↔
      (walkI (fun a b => 2 * a + 3 * b + 1) [1] 0 0 ∈ ([4] : List Nat) ∧
        foldPeaksSpec (fun a b => 2 * a + 3 * b + 1) [4] = some 4)) :=
  ⟨by decide, c2_verify_iff (fun a b => 2 * a + 3 * b + 1) 4 [4] [1] 0 0
    (by decide)⟩

/-- C8: a call of `verify_proof` reaches the panic branch of the embedded
`peaks[0]` access (returns `none`) exactly when the peaks argument is empty;
for non-empty peaks it always returns a boolean. -/
theorem c8_empty_peaks {D : Type} [DecidableEq D] (c : D → D → D) (root : D)
    (peaks pf : List D) (leaf : D) (idx : Int) :
    verify_proof c root peaks pf leaf idx = none ↔ peaks = [] := by
  rcases peaks with _ | ⟨p, ps⟩
  · simp [verify_proof]
  · simp [verify_proof]

/-- C10: with `max_height = 0` there is no level 0 at all, so every append
and every whole-structure query hits the out-of-bounds `layers[0]` access
(the embedded panic `none`). -/
theorem c10_zero_height {D : Type} (c : D → D → D) (hashFn : List Nat → D)
    (x : D) (bs : List Nat) (j : Nat) :
    append_leaf c (new D 0) x = none ∧
    append_data c hashFn (new D 0) bs = none ∧
    top_level (new D 0) = none ∧
    compute_root c (new D 0) = none ∧
    get_peaks (new D 0) = none ∧
    generate_proof (new D 0) j = none :=
  ⟨rfl, rfl, rfl, rfl, rfl, rfl⟩

/-- C4: after any sequence of appends with final count `0 < n < 2^mh`,
level `i` holds exactly `n / 2^i` nodes, and is odd-length (a peak) exactly
when bit `i` of `n` is set. -/
theorem c4_binary_counter {D : Type} (c : D → D → D) (f : Nat → D)
    (mh n : Nat) (hn : 0 < n) (hnm : n < 2 ^ mh) :
    ∃ m, buildN c mh f n = some m ∧
      ∀ i, i < mh → ∃ l, m.layers[i]? = some l ∧ l.length = n / 2 ^ i ∧
        (l.length % 2 = 1 ↔ n.testBit i) := by
  obtain ⟨m, hm, hmx, hlen, hlayers⟩ := buildN_good c f mh n hnm
  refine ⟨m, hm, fun i hi =>
    ⟨layerSpec c f n i, hlayers i hi, layerSpec_length c f n i, ?_⟩⟩
  rw [layerSpec_length, Nat.testBit_to_div_mod]
  simp

/-- C4 witness at a concrete instance. -/
theorem c4_binary_counter_w :
    0 < 5 ∧ 5 < 2 ^ 3 ∧
    (∃ m, buildN (fun a b => 2 * a + 3 * b + 1) 3 (fun k => k) 5 = some m ∧
      ∀ i, i < 3 → ∃ l, m.layers[i]? = some l ∧ l.length = 5 / 2 ^ i ∧
        (l.length % 2 = 1 ↔ (5 : Nat).testBit i)) :=
  ⟨by decide, by decide,
    c4_binary_counter (fun a b => 2 * a + 3 * b + 1) (fun k => k) 3 5
      (by decide) (by decide)⟩

/-- C9: `top_level` is `none` on an empty accumulator and `floor (log2 n)`
otherwise, which is the highest level index holding any node. -/
theorem c9_top_level {D : Type} (c : D → D → D) (f : Nat → D) (mh n : Nat)
    (hmh : 1 ≤ mh) (hnm : n < 2 ^ mh) :
    ∃ m, buildN c mh f n = some m ∧
      (n = 0 → top_level m = some none) ∧
      (0 < n →
        top_level m = some (some (Nat.log2 n)) ∧
        Nat.log2 n < mh ∧
        (∃ l, m.layers[Nat.log2 n]? = some l ∧ l ≠ []) ∧
        (∀ j, Nat.log2 n < j → j < mh → m.layers[j]? = some [])) := by
  obtain ⟨m, hm, hmx, hlen, hlayers⟩ := buildN_good c f mh n hnm
  have h0 : m.layers[0]? = some (layerSpec c f n 0) := hlayers 0 (by omega)
  refine ⟨m, hm, ?_, ?_⟩
  · intro hz
    subst hz
    simp [top_level, h0, layerSpec]
  · intro hn
    have hlog : Nat.log2 n < mh := (Nat.log2_lt (by omega)).2 hnm
    refine ⟨?_, hlog, ?_, ?_⟩
    · simp only [top_level, h0, layerSpec_length, pow_zero, Nat.div_one]
      rw [if_neg (by omega)]
    · refine ⟨layerSpec c f n (Nat.log2 n), hlayers _ hlog, ?_⟩
      have hpos : 0 < (layerSpec c f n (Nat.log2 n)).length := by
        rw [layerSpec_length, div_pow_log2 hn]
        omega
      exact List.ne_nil_of_length_pos hpos
    · intro j hj hjm
      have hlt : n < 2 ^ j := (Nat.log2_lt (by omega)).1 hj
      have hz : n / 2 ^ j = 0 := Nat.div_eq_of_lt hlt
      rw [hlayers j hjm]
      rw [layerSpec, hz, List.range_zero, List.map_nil]

/-- C9 witness at a concrete instance. -/
theorem c9_top_level_w :
    1 ≤ 3 ∧ 5 < 2 ^ 3 ∧
    (∃ m, buildN (fun a b => 2 * a + 3 * b + 1) 3 (fun k => k) 5 = some m ∧
      ((5 : Nat) = 0 → top_level m = some none) ∧
      (0 < (5 : Nat) →
        top_level m = some (some (Nat.log2 5)) ∧
        Nat.log2 5 < 3 ∧
        (∃ l, m.layers[Nat.log2 5]? = some l ∧ l ≠ []) ∧
        (∀ j, Nat.log2 5 < j → j < 3 → m.layers[j]? = some []))) :=
  ⟨by decide, by decide,
    c9_top_level (fun a b => 2 * a + 3 * b + 1) (fun k => k) 3 5
      (by decide) (by decide)⟩

/-- C5: all `2 ^ max_height - 1` appends succeed, but the very next append
returns the out-of-bounds panic (`none`) instead of a defined
capacity-exceeded error — the carry loop pushes into the non-existent level
`max_height`. -/
theorem c5_capacity {D : Type} (c : D → D → D) (f : Nat → D) (mh : Nat)
    (hmh : 1 ≤ mh) :
    (∃ m, buildN c mh f (2 ^ mh - 1) = some m) ∧
    buildN c mh f (2 ^ mh) = none := by
  obtain ⟨m, hm, _⟩ := buildN_good c f mh (2 ^ mh - 1)
    (by have : 0 < 2 ^ mh := Nat.pow_pos (by norm_num); omega)
  exact ⟨⟨m, hm⟩, buildN_overflow c f (by omega)⟩

/-- C5 witness at a concrete instance. -/
theorem c5_capacity_w :
    1 ≤ 1 ∧
    ((∃ m, buildN (fun a b => 2 * a + 3 * b + 1) 1 (fun k => k) (2 ^ 1 - 1) =
      some m) ∧
    buildN (fun a b => 2 * a + 3 * b + 1) 1 (fun k => k) (2 ^ 1) = none) :=
  ⟨by decide, c5_capacity (fun a b => 2 * a + 3 * b + 1) (fun k => k) 1
    (by decide)⟩

/-- C6: on a fresh accumulator with `max_height = 1`, querying level
`1 = max_height` (an index the claim covers, since it is outside
`0..max_height-1`) reaches the out-of-bounds `layers[level]` read — the
embedded panic `none` — in both `get_node` and `get_level`, because the
source guard is `level > max_height` instead of `level ≥ max_height`;
only levels strictly above `max_height` return the absent value. -/
theorem c6_level_bound_panic :
    get_node (new Nat 1) 1 0 = none ∧
    get_level (new Nat 1) 1 = none ∧
    get_node (new Nat 1) 2 0 = some none ∧
    get_level (new Nat 1) 2 = some none :=
  ⟨rfl, rfl, rfl, rfl⟩

/-- A filtered range scan ignores levels past the point where the filter is
always absent. -/
theorem filterMap_range_high_none {α : Type} (g : Nat → Option α) (k mh : Nat)
    (hk : k ≤ mh) (hnone : ∀ i, k ≤ i → g i = none) :
    (List.range mh).filterMap g = (List.range k).filterMap g := by
  rw [show mh = k + (mh - k) by omega, List.range_add, List.filterMap_append]
  have hz : ((List.range (mh - k)).map (k + ·)).filterMap g = [] := by
    rw [List.filterMap_map]
    refine List.filterMap_eq_nil.mpr fun a _ => ?_
    exact hnone (k + a) (by omega)
  rw [hz, List.append_nil]

/-- C3: `compute_root` folds the odd-level last entries (lowest level first,
as seed) with `combine`; with exactly three leaves the peaks are
`[L2, combine L0 L1]` and the root `combine L2 (combine L0 L1)`. -/
theorem c3_root_fold {D : Type} (c : D → D → D) :
    (∀ (f : Nat → D) (mh n : Nat), 0 < n → n < 2 ^ mh →
      ∃ m p ps, buildN c mh f n = some m ∧
        get_peaks m = some (some (p :: ps)) ∧
        p :: ps = peaksSpec c f n mh ∧
        compute_root c m = some (some (ps.foldl c p))) ∧
    (∀ (L0 L1 L2 : D) (mh : Nat), 2 ≤ mh →
      ∃ m, buildN c mh
          (fun k => if k = 0 then L0 else if k = 1 then L1 else L2) 3 = some m ∧
        get_peaks m = some (some [L2, c L0 L1]) ∧
        compute_root c m = some (some (c L2 (c L0 L1)))) := by
  have hgen : ∀ (f : Nat → D) (mh n : Nat), 0 < n → n < 2 ^ mh →
      ∃ m p ps, buildN c mh f n = some m ∧
        get_peaks m = some (some (p :: ps)) ∧
        p :: ps = peaksSpec c f n mh ∧
        compute_root c m = some (some (ps.foldl c p)) := by
    intro f mh n hn hnm
    obtain ⟨m, hm, hg⟩ := buildN_good c f mh n hnm
    obtain ⟨p, ps, hps, hroot⟩ := compute_root_spec c f hg hn hnm
    have hpk := get_peaks_spec c f hg hn hnm
    exact ⟨m, p, ps, hm, by rw [hpk, hps], hps.symm, hroot⟩
  refine ⟨hgen, ?_⟩
  intro L0 L1 L2 mh hmh
  have h3 : (3 : Nat) < 2 ^ mh := by
    have h1 : (2 : Nat) ^ 2 ≤ 2 ^ mh := Nat.pow_le_pow_right (by norm_num) hmh
    have h2 : (2 : Nat) ^ 2 = 4 := by norm_num
    omega
  obtain ⟨m, p, ps, hm, hpk, hps, hroot⟩ :=
    hgen (fun k => if k = 0 then L0 else if k = 1 then L1 else L2) mh 3
      (by omega) h3
  have hcompute :
      peaksSpec c (fun k => if k = 0 then L0 else if k = 1 then L1 else L2)
        3 mh = [L2, c L0 L1] := by
    rw [peaksSpec_eq, filterMap_range_high_none _ 2 mh hmh ?_]
    · rfl
    · intro i hi
      have hdiv : 3 / 2 ^ i = 0 := by
        refine Nat.div_eq_of_lt ?_
        calc (3 : Nat) < 2 ^ 2 := by norm_num
        _ ≤ 2 ^ i := Nat.pow_le_pow_right (by norm_num) hi
      rw [peakAt, hdiv]
      rfl
  rw [hcompute] at hps
  have hpe : p = L2 ∧ ps = [c L0 L1] := by
    constructor
    · exact (List.cons.injEq _ _ _ _ ▸ hps).1
    · exact (List.cons.injEq _ _ _ _ ▸ hps).2
  obtain ⟨hp, hq⟩ := hpe
  subst hp hq
  exact ⟨m, hm, hpk, hroot⟩

/-- C3 witness at a concrete instance. -/
theorem c3_root_fold_w :
    (0 < 2 ∧ 2 < 2 ^ 2) ∧ 2 ≤ 2 ∧
    (∃ m p ps, buildN (fun a b => 2 * a + 3 * b + 1) 2 (fun k => k) 2 =
        some m ∧
      get_peaks m = some (some (p :: ps)) ∧
      p :: ps = peaksSpec (fun a b => 2 * a + 3 * b + 1) (fun k => k) 2 2 ∧
      compute_root (fun a b => 2 * a + 3 * b + 1) m =
        some (some (ps.foldl (fun a b => 2 * a + 3 * b + 1) p))) ∧
    (∃ m, buildN (fun a b => 2 * a + 3 * b + 1) 2
        (fun k => if k = 0 then 10 else if k = 1 then 11 else 12) 3 = some m ∧
      get_peaks m = some (some [12, 2 * 10 + 3 * 11 + 1]) ∧
      compute_root (fun a b => 2 * a + 3 * b + 1) m =
        some (some (2 * 12 + 3 * (2 * 10 + 3 * 11 + 1) + 1))) :=
  ⟨⟨by decide, by decide⟩, by decide,
    (c3_root_fold (fun a b => 2 * a + 3 * b + 1)).1 (fun k => k) 2 2
      (by decide) (by decide),
    (c3_root_fold (fun a b => 2 * a + 3 * b + 1)).2 10 11 12 2 (by decide)⟩

/-!
  ## Tamper analysis machinery

  To reason about mutated verification inputs, combine collisions are
  excluded by hypothesis: `c` is an injective pairing, the leaf digests are
  `atomP` atoms outside the range of `c`, and the leaves are pairwise
  distinct.  `CompleteT k x` says `x` is a perfect combine-tree of height
  `k` over atoms — the shape of every honestly computed node digest.
-/

/-- Perfect combine-trees of a given height over atoms. -/
inductive CompleteT {D : Type} (c : D → D → D) (atomP : D → Prop) :
    Nat → D → Prop where
  | base : ∀ x, atomP x → CompleteT c atomP 0 x
  | step : ∀ k a b, CompleteT c atomP k a → CompleteT c atomP k b →
      CompleteT c atomP (k + 1) (c a b)

/-- Every honestly computed node digest is a perfect tree of its level. -/
theorem ct_nodeHash {D : Type} {c : D → D → D} {atomP : D → Prop}
    {f : Nat → D} (hatom : ∀ k, atomP (f k)) :
    ∀ i j, CompleteT c atomP i (nodeHash c f i j) := by
  intro i
  induction i with
  | zero => intro j; exact CompleteT.base _ (hatom j)
  | succ i ih => intro j; exact CompleteT.step _ _ _ (ih _) (ih _)

/-- A perfect tree that is an atom has height zero. -/
theorem ct_atom_eq_zero {D : Type} {c : D → D → D} {atomP : D → Prop}
    (hap : ∀ x a b, atomP x → x ≠ c a b) {s : Nat} {x : D} (hx : atomP x)
    (h : CompleteT c atomP s x) : s = 0 := by
  cases h with
  | base _ _ => rfl
  | step k a b _ _ => exact absurd rfl (hap _ a b hx)

/-- Inversion for a perfect tree headed by a combine node. -/
theorem ct_pair_inv {D : Type} {c : D → D → D} {atomP : D → Prop}
    (hc : ∀ a b a2 b2, c a b = c a2 b2 → a = a2 ∧ b = b2)
    (hap : ∀ x a b, atomP x → x ≠ c a b) {s : Nat} {u v : D}
    (h : CompleteT c atomP s (c u v)) :
    ∃ s2, s = s2 + 1 ∧ CompleteT c atomP s2 u ∧ CompleteT c atomP s2 v := by
  generalize hE : c u v = E at h
  cases h with
  | base x hx =>
    subst hE
    exact absurd rfl (hap _ u v hx)
  | step k a b ha hb =>
    obtain ⟨hu, hv⟩ := hc u v a b hE
    exact ⟨k, rfl, by rw [hu]; exact ha, by rw [hv]; exact hb⟩

/-- The height of a perfect tree is determined by the tree. -/
theorem ct_unique {D : Type} {c : D → D → D} {atomP : D → Prop}
    (hc : ∀ a b a2 b2, c a b = c a2 b2 → a = a2 ∧ b = b2)
    (hap : ∀ x a b, atomP x → x ≠ c a b) :
    ∀ s x s2, CompleteT c atomP s x → CompleteT c atomP s2 x → s = s2 := by
  intro s
  induction s with
  | zero =>
    intro x s2 h1 h2
    cases h1 with
    | base _ hy => exact (ct_atom_eq_zero hap hy h2).symm
  | succ k ih =>
    intro x s2 h1 h2
    cases h1 with
    | step k a b ha hb =>
      obtain ⟨s3, rfl, ha2, hb2⟩ := ct_pair_inv hc hap h2
      rw [ih a s3 ha ha2]

/-- The sibling list has length `t`. -/
theorem sibs_length {D : Type} (c : D → D → D) (f : Nat → D) :
    ∀ t level idx, (sibs c f level idx t).length = t := by
  intro t
  induction t with
  | zero => intro level idx; rfl
  | succ t ih => intro level idx; simp [sibs, ih]

/-- The sibling list splits off its last (highest-level) entry. -/
theorem sibs_snoc {D : Type} (c : D → D → D) (f : Nat → D) :
    ∀ t level idx, sibs c f level idx (t + 1) =
      sibs c f level idx t ++
        [nodeHash c f (level + t) (sibIdx (idx / 2 ^ t))] := by
  intro t
  induction t with
  | zero => intro level idx; simp [sibs]
  | succ t ih =>
    intro level idx
    have h1 : sibs c f level idx (t + 1 + 1) =
        nodeHash c f level (sibIdx idx) :: sibs c f (level + 1) (idx / 2) (t + 1) :=
      rfl
    rw [h1, ih (level + 1) (idx / 2), div_two_pow_succ,
      show level + 1 + t = level + (t + 1) by omega]
    rfl

/-- The sibling list splits at any intermediate level. -/
theorem sibs_split {D : Type} (c : D → D → D) (f : Nat → D) :
    ∀ j t level idx, j ≤ t → sibs c f level idx t =
      sibs c f level idx j ++
        sibs c f (level + j) (idx / 2 ^ j) (t - j) := by
  intro j
  induction j with
  | zero => intro t level idx _; simp [sibs]
  | succ j ih =>
    intro t level idx hj
    rcases t with _ | t0
    · omega
    · have h1 : sibs c f level idx (t0 + 1) =
          nodeHash c f level (sibIdx idx) :: sibs c f (level + 1) (idx / 2) t0 :=
        rfl
      rw [h1, ih t0 (level + 1) (idx / 2) (by omega), div_two_pow_succ,
        show level + 1 + j = level + (j + 1) by omega,
        show t0 - j = t0 + 1 - (j + 1) by omega]
      rfl

/-- Walking an appended proof walks the two halves in order, the index
shifted down by the length of the first half. -/
theorem walkN_append {D : Type} (c : D → D → D) :
    ∀ (a b : List D) (x : D) (k : Nat),
      walkN c (a ++ b) x k = walkN c b (walkN c a x k) (k / 2 ^ a.length) := by
  intro a
  induction a with
  | nil => intro b x k; simp [walkN]
  | cons s rest ih =>
    intro b x k
    simp only [List.cons_append, walkN, List.append_eq]
    rw [ih, div_two_pow_succ]
    rfl

/-- A walk over a proof whose last entry (or whose prefix walk) is a
perfect tree of the prefix length can only be a perfect tree of height one
more: the final combine step pins the height. -/
theorem ct_walk_snoc {D : Type} {c : D → D → D} {atomP : D → Prop}
    (hc : ∀ a b a2 b2, c a b = c a2 b2 → a = a2 ∧ b = b2)
    (hap : ∀ x a b, atomP x → x ≠ c a b)
    {dl : List D} {lastd x : D} {k s : Nat}
    (hlast : CompleteT c atomP dl.length lastd ∨
      CompleteT c atomP dl.length (walkN c dl x k))
    (hcomp : CompleteT c atomP s (walkN c (dl ++ [lastd]) x k)) :
    s = dl.length + 1 := by
  rw [walkN_append] at hcomp
  by_cases hpar : (k / 2 ^ dl.length) % 2 = 0
  · rw [show walkN c [lastd] (walkN c dl x k) (k / 2 ^ dl.length) =
        c (walkN c dl x k) lastd from by rw [walkN, if_pos hpar]; rfl] at hcomp
    obtain ⟨s2, rfl, hW, hlastd⟩ := ct_pair_inv hc hap hcomp
    rcases hlast with hl | hl
    · rw [ct_unique hc hap s2 lastd dl.length hlastd hl]
    · rw [ct_unique hc hap s2 _ dl.length hW hl]
  · rw [show walkN c [lastd] (walkN c dl x k) (k / 2 ^ dl.length) =
        c lastd (walkN c dl x k) from by rw [walkN, if_neg hpar]; rfl] at hcomp
    obtain ⟨s2, rfl, hlastd, hW⟩ := ct_pair_inv hc hap hcomp
    rcases hlast with hl | hl
    · rw [ct_unique hc hap s2 lastd dl.length hlastd hl]
    · rw [ct_unique hc hap s2 _ dl.length hW hl]

/-- With an injective combine, the walk determines its seed (for any pair
of starting indices). -/
theorem walk_seed_inj {D : Type} {c : D → D → D}
    (hc : ∀ a b a2 b2, c a b = c a2 b2 → a = a2 ∧ b = b2) :
    ∀ (pf : List D) (x y : D) (k k2 : Nat),
      walkN c pf x k = walkN c pf y k2 → x = y := by
  intro pf
  induction pf with
  | nil => intro x y k k2 h; exact h
  | cons s rest ih =>
    intro x y k k2 h
    simp only [walkN] at h
    have hcb := ih _ _ _ _ h
    by_cases h1 : k % 2 = 0
    · by_cases h2 : k2 % 2 = 0
      · rw [if_pos h1, if_pos h2] at hcb
        exact (hc _ _ _ _ hcb).1
      · rw [if_pos h1, if_neg h2] at hcb
        obtain ⟨ha, hb⟩ := hc _ _ _ _ hcb
        exact ha.trans hb
    · by_cases h2 : k2 % 2 = 0
      · rw [if_neg h1, if_pos h2] at hcb
        obtain ⟨ha, hb⟩ := hc _ _ _ _ hcb
        exact hb.trans ha
      · rw [if_neg h1, if_neg h2] at hcb
        exact (hc _ _ _ _ hcb).2

/-- With an injective combine, two equal walks of the same length from the
same index determine the proof lists and the seeds. -/
theorem walk_list_inj {D : Type} {c : D → D → D}
    (hc : ∀ a b a2 b2, c a b = c a2 b2 → a = a2 ∧ b = b2) :
    ∀ (pf1 pf2 : List D) (x y : D) (k : Nat), pf1.length = pf2.length →
      walkN c pf1 x k = walkN c pf2 y k → pf1 = pf2 ∧ x = y := by
  intro pf1
  induction pf1 with
  | nil =>
    intro pf2 x y k hlen h
    rcases pf2 with _ | ⟨s2, r2⟩
    · exact ⟨rfl, h⟩
    · simp at hlen
  | cons s1 r1 ih =>
    intro pf2 x y k hlen h
    rcases pf2 with _ | ⟨s2, r2⟩
    · simp at hlen
    · simp only [walkN] at h
      obtain ⟨hr, hcb⟩ := ih r2 _ _ (k / 2) (by simpa using hlen) h
      by_cases h1 : k % 2 = 0
      · rw [if_pos h1, if_pos h1] at hcb
        obtain ⟨hx, hs⟩ := hc _ _ _ _ hcb
        exact ⟨by rw [hr, hs], hx⟩
      · rw [if_neg h1, if_neg h1] at hcb
        obtain ⟨hs, hx⟩ := hc _ _ _ _ hcb
        exact ⟨by rw [hr, hs], hx⟩

/-- The walk only depends on the index through its low bits (one per
step). -/
theorem walk_path_congr {D : Type} (c : D → D → D) :
    ∀ (pf : List D) (x : D) (k k2 : Nat),
      (∀ j, j < pf.length → (k / 2 ^ j) % 2 = (k2 / 2 ^ j) % 2) →
      walkN c pf x k = walkN c pf x k2 := by
  intro pf
  induction pf with
  | nil => intro x k k2 _; rfl
  | cons s rest ih =>
    intro x k k2 hbits
    have h0 : k % 2 = k2 % 2 := by
      have h := hbits 0 (by simp)
      simpa using h
    have hsub : ∀ j, j < rest.length →
        (k / 2 / 2 ^ j) % 2 = (k2 / 2 / 2 ^ j) % 2 := by
      intro j hj
      rw [div_two_pow_succ, div_two_pow_succ]
      exact hbits (j + 1) (by simp; omega)
    simp only [walkN]
    by_cases h1 : k % 2 = 0
    · rw [if_pos h1, if_pos (show k2 % 2 = 0 by omega)]
      exact ih (c x s) (k / 2) (k2 / 2) hsub
    · rw [if_neg h1, if_neg (show ¬ k2 % 2 = 0 by omega)]
      exact ih (c s x) (k / 2) (k2 / 2) hsub

/-- Node hashes at one level are injective in the position when the leaves
are pairwise distinct. -/
theorem nodeHash_inj {D : Type} {c : D → D → D} {f : Nat → D}
    (hc : ∀ a b a2 b2, c a b = c a2 b2 → a = a2 ∧ b = b2)
    (hf : ∀ a b, f a = f b → a = b) :
    ∀ j a b, nodeHash c f j a = nodeHash c f j b → a = b := by
  intro j
  induction j with
  | zero => intro a b h; exact hf a b h
  | succ j ih =>
    intro a b h
    have h1 : nodeHash c f j (2 * a) = nodeHash c f j (2 * b) :=
      (hc _ _ _ _ h).1
    have := ih _ _ h1
    omega

/-- The sibling index always differs from the index itself. -/
theorem sibIdx_ne (q : Nat) : sibIdx q ≠ q := by
  rw [sibIdx]
  by_cases h : q % 2 = 0
  · rw [if_pos h]; omega
  · rw [if_neg h]; omega

/-- Numbers with equal low bits are equal modulo the corresponding power of
two. -/
theorem mod_two_pow_eq_of_bits {a b t : Nat}
    (h : ∀ j, j < t → (a / 2 ^ j) % 2 = (b / 2 ^ j) % 2) :
    a % 2 ^ t = b % 2 ^ t := by
  apply Nat.eq_of_testBit_eq
  intro j
  rw [Nat.testBit_mod_two_pow, Nat.testBit_mod_two_pow]
  by_cases hj : j < t
  · rw [Nat.testBit_to_div_mod, Nat.testBit_to_div_mod, h j hj]
  · simp [hj]

/-- Distinct residues modulo `2^t` have a least differing bit below `t`. -/
theorem exists_min_diff_bit {a b t : Nat} (h : a % 2 ^ t ≠ b % 2 ^ t) :
    ∃ j0, j0 < t ∧ (a / 2 ^ j0) % 2 ≠ (b / 2 ^ j0) % 2 ∧
      ∀ j, j < j0 → (a / 2 ^ j) % 2 = (b / 2 ^ j) % 2 := by
  have hex : ∃ j, j < t ∧ (a / 2 ^ j) % 2 ≠ (b / 2 ^ j) % 2 := by
    by_contra hno
    push_neg at hno
    exact h (mod_two_pow_eq_of_bits hno)
  obtain ⟨j, hj, hne⟩ := hex
  have hexP : ∃ j, (a / 2 ^ j) % 2 ≠ (b / 2 ^ j) % 2 := ⟨j, hne⟩
  refine ⟨Nat.find hexP, lt_of_le_of_lt (Nat.find_min' hexP hne) hj,
    Nat.find_spec hexP, fun j2 hj2 => ?_⟩
  have h2 := Nat.find_min hexP hj2
  exact not_not.mp h2

/-- The honest walk from leaf `i` over its generated siblings reaches the
level-`t` node above it. -/
theorem walk_genuine {D : Type} (c : D → D → D) (f : Nat → D) (t i : Nat) :
    walkN c (sibs c f 0 i t) (f i) i = nodeHash c f t (i / 2 ^ t) := by
  have h := walkN_sibs c f t 0 i
  rw [show nodeHash c f 0 i = f i from rfl, zero_add] at h
  exact h

/-- Members of the expected peak sequence are exactly the last nodes of the
odd levels. -/
theorem mem_peaksSpec_inv {D : Type} {c : D → D → D} {f : Nat → D}
    {n mh : Nat} {p : D} (hp : p ∈ peaksSpec c f n mh) :
    ∃ lv, lv < mh ∧ (n / 2 ^ lv) % 2 = 1 ∧
      p = nodeHash c f lv (n / 2 ^ lv - 1) := by
  rw [peaksSpec_eq] at hp
  obtain ⟨lv, hlv, hpk⟩ := List.mem_filterMap.mp hp
  rw [peakAt] at hpk
  by_cases hodd : (n / 2 ^ lv) % 2 = 1
  · rw [if_pos hodd] at hpk
    exact ⟨lv, List.mem_range.mp hlv, hodd, (Option.some_inj.mp hpk).symm⟩
  · rw [if_neg hodd] at hpk
    cases hpk

/-- `verify_proof` rejects when the walked hash is not among the supplied
peaks, whatever the root check says. -/
theorem verify_proof_false {D : Type} [DecidableEq D] (c : D → D → D)
    {peaks pf : List D} {leaf root p : D} {ps : List D} {idx : Int}
    (hpk : peaks = p :: ps) (hroot : root = ps.foldl c p)
    (hmem : walkI c pf leaf idx ∉ peaks) :
    verify_proof c root peaks pf leaf idx = some false := by
  subst hpk hroot
  simp only [verify_proof, List.getElem?_cons_zero, List.drop_one,
    List.tail_cons]
  simp [hmem]

/-- C7 (amended): on an accumulator built from pairwise-distinct leaf
digests that are atoms outside the range of an injective `combine`
(collision-free modelling), with `1 < n` leaves and a valid proof `pf` for
leaf `i`: (a) replacing the supplied leaf by any different atomic digest,
(b) replacing any single proof entry by a different digest, and
(c) replacing the leaf index by a non-negative index that differs from `i`
modulo `2 ^ pf.length`, each make `verify_proof` return `false`.  (A
mutated index congruent to `i`, or a mutated leaf equal to a combined-node
digest such as another peak, can be accepted — see the counterexample.) -/
theorem c7_tamper_amended {D : Type} [DecidableEq D] (c : D → D → D)
    (f : Nat → D) (atomP : D → Prop) (mh n i : Nat)
    (hc : ∀ a b a2 b2, c a b = c a2 b2 → a = a2 ∧ b = b2)
    (hf : ∀ a b, f a = f b → a = b)
    (hatom : ∀ k, atomP (f k))
    (hap : ∀ x a b, atomP x → x ≠ c a b)
    (hn1 : 1 < n) (hnm : n < 2 ^ mh) (hi : i < n)
    (m : MerkleMountainRange D) (root : D) (peaks pf : List D)
    (hm : buildN c mh f n = some m)
    (hroot : compute_root c m = some (some root))
    (hpeaks : get_peaks m = some (some peaks))
    (hpf : generate_proof m i = some (some pf)) :
    (∀ leafx, atomP leafx → leafx ≠ f i →
      verify_proof c root peaks pf leafx (i : Int) = some false) ∧
    (∀ j s2 s3, pf[j]? = some s2 → s3 ≠ s2 →
      verify_proof c root peaks (pf.set j s3) (f i) (i : Int) = some false) ∧
    (∀ i2 : Nat, i2 % 2 ^ pf.length ≠ i % 2 ^ pf.length →
      verify_proof c root peaks pf (f i) ((i2 : Nat) : Int) = some false) := by
  obtain ⟨m2, hm2, hg⟩ := buildN_good c f mh n hnm
  obtain rfl : m = m2 := Option.some_inj.mp (hm.symm.trans hm2)
  obtain ⟨p, ps, hps, hroot2⟩ := compute_root_spec c f hg (by omega) hnm
  obtain rfl : root = ps.foldl c p :=
    Option.some_inj.mp (Option.some_inj.mp (hroot.symm.trans hroot2))
  obtain rfl : peaks = peaksSpec c f n mh :=
    Option.some_inj.mp (Option.some_inj.mp
      (hpeaks.symm.trans (get_peaks_spec c f hg (by omega) hnm)))
  obtain ⟨t, hpf2, harith, hparode, hlt⟩ := generate_proof_spec c f hg hnm hi
  obtain rfl : pf = sibs c f 0 i t :=
    Option.some_inj.mp (Option.some_inj.mp (hpf.symm.trans hpf2))
  have hplen : (sibs c f 0 i t).length = t := sibs_length c f t 0 i
  have hsub1 : n / 2 ^ t - 1 = i / 2 ^ t := by
    rw [← harith]
    exact Nat.add_sub_cancel _ _
  have hpeak_t : nodeHash c f t (n / 2 ^ t - 1) =
      walkN c (sibs c f 0 i t) (f i) i := by
    rw [walk_genuine, hsub1]
  refine ⟨?_, ?_, ?_⟩
  · -- (a) mutated leaf
    intro leafx hax hne
    refine verify_proof_false c hps rfl ?_
    rw [walkI_natCast]
    intro hmem
    obtain ⟨lv, hlvmh, hlodd, hlval⟩ := mem_peaksSpec_inv hmem
    rcases t with _ | t0
    · -- empty proof: the walked value is the mutated leaf itself
      have hw0 : walkN c (sibs c f 0 i 0) leafx i = leafx := rfl
      rw [hw0] at hlval
      have hcomp : CompleteT c atomP lv leafx := by
        rw [hlval]; exact ct_nodeHash hatom lv _
      have hlv0 : lv = 0 := ct_atom_eq_zero hap hax hcomp
      subst hlv0
      simp only [pow_zero, Nat.div_one] at hlval harith
      rw [show n - 1 = i from by omega] at hlval
      exact hne hlval
    · -- non-empty proof: the final combine pins the height at t
      have hsnoc : sibs c f 0 i (t0 + 1) =
          sibs c f 0 i t0 ++ [nodeHash c f t0 (sibIdx (i / 2 ^ t0))] := by
        rw [sibs_snoc c f t0 0 i, zero_add]
      have hcomp : CompleteT c atomP lv
          (walkN c (sibs c f 0 i (t0 + 1)) leafx i) := by
        rw [hlval]; exact ct_nodeHash hatom lv _
      rw [hsnoc] at hcomp
      have hlv : lv = t0 + 1 := by
        have h := ct_walk_snoc hc hap (Or.inl (by
          rw [sibs_length]; exact ct_nodeHash hatom t0 _)) hcomp
        rw [sibs_length] at h
        exact h
      subst hlv
      have heqw : walkN c (sibs c f 0 i (t0 + 1)) leafx i =
          walkN c (sibs c f 0 i (t0 + 1)) (f i) i := hlval.trans hpeak_t
      exact hne (walk_seed_inj hc _ _ _ _ _ heqw)
  · -- (b) mutated proof entry
    intro j s2 s3 hj hne
    have hjlen : j < t := by
      by_contra hcon
      push_neg at hcon
      have hnone : (sibs c f 0 i t)[j]? = none := by
        rw [List.getElem?_eq_none]
        rw [sibs_length]
        omega
      rw [hnone] at hj
      cases hj
    refine verify_proof_false c hps rfl ?_
    rw [walkI_natCast]
    intro hmem
    obtain ⟨lv, hlvmh, hlodd, hlval⟩ := mem_peaksSpec_inv hmem
    rcases t with _ | t0
    · omega
    · have hsnoc : sibs c f 0 i (t0 + 1) =
          sibs c f 0 i t0 ++ [nodeHash c f t0 (sibIdx (i / 2 ^ t0))] := by
        rw [sibs_snoc c f t0 0 i, zero_add]
      have hcomp : CompleteT c atomP lv
          (walkN c ((sibs c f 0 i (t0 + 1)).set j s3) (f i) i) := by
        rw [hlval]; exact ct_nodeHash hatom lv _
      have hlv : lv = t0 + 1 := by
        rcases Nat.lt_or_ge j t0 with hj0 | hj0
        · -- mutation below the top entry: the last entry is still genuine
          have hdecomp : (sibs c f 0 i (t0 + 1)).set j s3 =
              (sibs c f 0 i t0).set j s3 ++
                [nodeHash c f t0 (sibIdx (i / 2 ^ t0))] := by
            rw [hsnoc, List.set_append_left _ _ (by rw [sibs_length]; omega)]
          rw [hdecomp] at hcomp
          have h := ct_walk_snoc hc hap (Or.inl (by
            rw [List.length_set, sibs_length]
            exact ct_nodeHash hatom t0 _)) hcomp
          rw [List.length_set, sibs_length] at h
          exact h
        · -- the top entry is mutated: the prefix walk is genuine
          have hj0e : j = t0 := by omega
          subst hj0e
          have hdecomp : (sibs c f 0 i (j + 1)).set j s3 =
              sibs c f 0 i j ++ [s3] := by
            rw [hsnoc, List.set_append_right _ _ (by rw [sibs_length])]
            rw [sibs_length, Nat.sub_self]
            rfl
          rw [hdecomp] at hcomp
          have h := ct_walk_snoc hc hap (Or.inr (by
            rw [sibs_length, walk_genuine]
            exact ct_nodeHash hatom j _)) hcomp
          rw [sibs_length] at h
          exact h
      subst hlv
      have heqw : walkN c ((sibs c f 0 i (t0 + 1)).set j s3) (f i) i =
          walkN c (sibs c f 0 i (t0 + 1)) (f i) i := hlval.trans hpeak_t
      have hseteq : (sibs c f 0 i (t0 + 1)).set j s3 = sibs c f 0 i (t0 + 1) :=
        (walk_list_inj hc _ _ _ _ _ (by rw [List.length_set]) heqw).1
      have hgets3 : ((sibs c f 0 i (t0 + 1)).set j s3)[j]? = some s3 :=
        List.getElem?_set_eq_of_lt _ (by rw [sibs_length]; omega)
      rw [hseteq, hj] at hgets3
      exact hne (Option.some_inj.mp hgets3).symm
  · -- (c) mutated index
    intro i2 hmod
    rw [hplen] at hmod
    have ht0 : t ≠ 0 := by
      intro h0
      subst h0
      rw [pow_zero] at hmod
      omega
    refine verify_proof_false c hps rfl ?_
    rw [walkI_natCast]
    intro hmem
    obtain ⟨lv, hlvmh, hlodd, hlval⟩ := mem_peaksSpec_inv hmem
    rcases t with _ | t0
    · omega
    · have hsnoc : sibs c f 0 i (t0 + 1) =
          sibs c f 0 i t0 ++ [nodeHash c f t0 (sibIdx (i / 2 ^ t0))] := by
        rw [sibs_snoc c f t0 0 i, zero_add]
      have hcomp : CompleteT c atomP lv
          (walkN c (sibs c f 0 i (t0 + 1)) (f i) i2) := by
        rw [hlval]; exact ct_nodeHash hatom lv _
      rw [hsnoc] at hcomp
      have hlv : lv = t0 + 1 := by
        have h := ct_walk_snoc hc hap (Or.inl (by
          rw [sibs_length]; exact ct_nodeHash hatom t0 _)) hcomp
        rw [sibs_length] at h
        exact h
      subst hlv
      have heqw : walkN c (sibs c f 0 i (t0 + 1)) (f i) i2 =
          walkN c (sibs c f 0 i (t0 + 1)) (f i) i := hlval.trans hpeak_t
      -- find the lowest differing index bit and localize the walk there
      obtain ⟨j0, hj0t, hdiffb, hminb⟩ := exists_min_diff_bit hmod
      have hsplit : sibs c f 0 i (t0 + 1) =
          sibs c f 0 i j0 ++ sibs c f j0 (i / 2 ^ j0) (t0 + 1 - j0) := by
        have h := sibs_split c f j0 (t0 + 1) 0 i (by omega)
        rw [zero_add] at h
        exact h
      have hcons : sibs c f j0 (i / 2 ^ j0) (t0 + 1 - j0) =
          nodeHash c f j0 (sibIdx (i / 2 ^ j0)) ::
            sibs c f (j0 + 1) (i / 2 ^ j0 / 2) (t0 - j0) := by
        rw [show t0 + 1 - j0 = (t0 - j0) + 1 from by omega]
        rfl
      have hWA : walkN c (sibs c f 0 i j0) (f i) i =
          nodeHash c f j0 (i / 2 ^ j0) := walk_genuine c f j0 i
      have hWA2 : walkN c (sibs c f 0 i j0) (f i) i2 =
          nodeHash c f j0 (i / 2 ^ j0) := by
        rw [walk_path_congr c _ (f i) i2 i (fun j hj => by
          rw [sibs_length] at hj
          exact hminb j hj)]
        exact hWA
      rw [hsplit, hcons, walkN_append, walkN_append, hWA, hWA2,
        sibs_length] at heqw
      -- one walk step with opposite orientations forces node = sibling
      have hWfile : nodeHash c f j0 (i / 2 ^ j0) =
          nodeHash c f j0 (sibIdx (i / 2 ^ j0)) := by
        by_cases hpe : (i / 2 ^ j0) % 2 = 0
        · have hpo : ¬ (i2 / 2 ^ j0) % 2 = 0 := by omega
          rw [walkN, walkN, if_pos hpe, if_neg hpo] at heqw
          have hcb := walk_seed_inj hc _ _ _ _ _ heqw
          exact (hc _ _ _ _ hcb).2
        · have hpo : (i2 / 2 ^ j0) % 2 = 0 := by omega
          rw [walkN, walkN, if_neg hpe, if_pos hpo] at heqw
          have hcb := walk_seed_inj hc _ _ _ _ _ heqw
          exact (hc _ _ _ _ hcb).1
      have := nodeHash_inj hc hf j0 _ _ hWfile
      exact absurd this.symm (sibIdx_ne (i / 2 ^ j0))

/-- C7 counterexample: with leaves `0, 1` under the concrete combine
`fun a b => 2*a + 3*b + 1`, the proof for leaf 0 is `[1]`; verifying with
the mutated leaf index `2` (instead of `0`) still returns `true`, because
index 2 agrees with index 0 on the one low bit the walk consumes — refuting
the claim that mutating the `leaf_index` argument always makes
`verify_proof` return false. -/
theorem c7_tamper_cx :
    buildN (fun a b => 2 * a + 3 * b + 1) 2 (fun k => k) 2 =
      some ⟨[[0, 1], [4]], 2⟩ ∧
    compute_root (fun a b => 2 * a + 3 * b + 1) ⟨[[0, 1], [4]], 2⟩ =
      some (some 4) ∧
    get_peaks ⟨[[0, 1], [4]], 2⟩ = some (some [4]) ∧
    generate_proof ⟨[[0, 1], [4]], 2⟩ 0 = some (some [1]) ∧
    get_node ⟨[[0, 1], [4]], 2⟩ 0 0 = some (some 0) ∧
    (2 : Int) ≠ (0 : Int) ∧
    verify_proof (fun a b => 2 * a + 3 * b + 1) 4 [4] [1] 0 (2 : Int) =
      some true :=
  ⟨by decide, by decide, by decide, by decide, by decide, by decide,
    by decide⟩

/-- A free digest algebra for the tamper-analysis witness: atoms and formal
combine nodes, so that combining is injective and never collides with an
atom. -/
inductive BT where
  | atom : Nat → BT
  | nodeC : BT → BT → BT
deriving DecidableEq

/-- C7 witness at a concrete instance over the free digest algebra. -/
theorem c7_tamper_amended_w :
    1 < 2 ∧ 2 < 2 ^ 2 ∧ 0 < 2 ∧
    ((∀ leafx, (∃ k, leafx = BT.atom k) → leafx ≠ BT.atom 0 →
        verify_proof BT.nodeC (BT.nodeC (BT.atom 0) (BT.atom 1))
          [BT.nodeC (BT.atom 0) (BT.atom 1)] [BT.atom 1] leafx
          ((0 : Nat) : Int) = some false) ∧
      (∀ j s2 s3, ([BT.atom 1] : List BT)[j]? = some s2 → s3 ≠ s2 →
        verify_proof BT.nodeC (BT.nodeC (BT.atom 0) (BT.atom 1))
          [BT.nodeC (BT.atom 0) (BT.atom 1)] (([BT.atom 1] : List BT).set j s3)
          (BT.atom 0) ((0 : Nat) : Int) = some false) ∧
      (∀ i2 : Nat, i2 % 2 ^ ([BT.atom 1] : List BT).length ≠
          0 % 2 ^ ([BT.atom 1] : List BT).length →
        verify_proof BT.nodeC (BT.nodeC (BT.atom 0) (BT.atom 1))
          [BT.nodeC (BT.atom 0) (BT.atom 1)] [BT.atom 1] (BT.atom 0)
          ((i2 : Nat) : Int) = some false)) :=
  ⟨by decide, by decide, by decide,
    c7_tamper_amended BT.nodeC BT.atom (fun x => ∃ k, x = BT.atom k) 2 2 0
      (fun a b a2 b2 h => by injection h with h1 h2; exact ⟨h1, h2⟩)
      (fun a b h => by injection h)
      (fun k => ⟨k, rfl⟩)
      (fun x a b hx => by
        obtain ⟨k, hk⟩ := hx
        subst hk
        intro hcon
        cases hcon)
      (by decide) (by decide) (by decide)
      ⟨[[BT.atom 0, BT.atom 1], [BT.nodeC (BT.atom 0) (BT.atom 1)]], 2⟩
      (BT.nodeC (BT.atom 0) (BT.atom 1))
      [BT.nodeC (BT.atom 0) (BT.atom 1)] [BT.atom 1]
      (by decide) (by decide) (by decide) (by decide)⟩
